import Mathlib

/-!
Verification of the WordPress-to-Strapi migration script
(`src/wp-script/functions.js`, `src/wp-script/lib/utils.js`,
`src/unnamed/part_001` = the image cache, `src/unnamed/part_002` = the
lib variant of the HTML-to-Markdown stage).

Strings are embedded as `List Char` (the `S` helper injects Lean string
literals).  JavaScript regular-expression operations used by the source are
reimplemented as executable scanners with the exact leftmost-match / lazy
quantifier / global-replace semantics of the originals; each scanner's doc
comment names the regex it embeds.  Network effects (download/upload,
post submission) are oracles passed as function parameters; the process-wide
image-cache singleton is threaded as explicit state.
-/

set_option maxRecDepth 10000

namespace WM

/-- Inject a Lean string literal as a character list. -/
def S (s : String) : List Char := s.data

/-- JavaScript `\s` whitespace (the ASCII part: space, tab, newline,
carriage return, vertical tab, form feed). -/
def wsChar (c : Char) : Bool :=
  c = ' ' || c = '\t' || c = '\n' || c = '\x0d' || c = Char.ofNat 11 || c = Char.ofNat 12

/-- A JavaScript line terminator (`\n` or `\r`); JS `.` matches any other
character. -/
def isNL (c : Char) : Bool := c = '\n' || c = '\x0d'

/-- `String.prototype.trim`: drop whitespace from both ends. -/
def jsTrim (l : List Char) : List Char :=
  ((l.dropWhile wsChar).reverse.dropWhile wsChar).reverse

/-- Association-list lookup, embedding `Map.prototype.get` (and `has`,
via `Option.isSome`). -/
def lookupA {β : Type} (m : List (List Char × β)) (k : List Char) : Option β :=
  match m with
  | [] => none
  | (k', v) :: rest => if k' = k then some v else lookupA rest k

/-- `Map.prototype.set`: overwrite the binding if the key is present,
otherwise append a new one. -/
def setA {β : Type} (m : List (List Char × β)) (k : List Char) (v : β) :
    List (List Char × β) :=
  match m with
  | [] => [(k, v)]
  | (k', v') :: rest => if k' = k then (k, v) :: rest else (k', v') :: setA rest k v

/-- First index at which `pat` occurs as a sublist of `l`
(JS `String.prototype.indexOf`). -/
def firstIndexOf (l pat : List Char) : Option Nat :=
  match l with
  | [] => if pat = [] then some 0 else none
  | _ :: rest =>
    if pat.isPrefixOf l then some 0
    else (firstIndexOf rest pat).map (· + 1)

/-- The `GetSubstitution` step of `String.prototype.replace` with a string
pattern: `$$`, `$&`, ``$` ``, `$'` are special in the replacement text
(there are no capture groups for a string pattern). -/
def getSubstitution (matched before after : List Char) : List Char → List Char
  | [] => []
  | '$' :: '$' :: rest => '$' :: getSubstitution matched before after rest
  | '$' :: '&' :: rest => matched ++ getSubstitution matched before after rest
  | '$' :: c :: rest =>
    if c = Char.ofNat 96 then before ++ getSubstitution matched before after rest
    else if c = Char.ofNat 39 then after ++ getSubstitution matched before after rest
    else '$' :: c :: getSubstitution matched before after rest
  | c :: rest => c :: getSubstitution matched before after rest

/-- `String.prototype.replace(pat, repl)` with string arguments: replace the
first occurrence of `pat`, applying `GetSubstitution` to `repl`. -/
def jsReplaceFirst (l pat repl : List Char) : List Char :=
  match firstIndexOf l pat with
  | none => l
  | some i =>
    let before := l.take i
    let after := l.drop (i + pat.length)
    before ++ getSubstitution pat before after repl ++ after

/-! ## `src/wp-script/lib/utils.js` -/

/-- `getFilename(url)`: `url.split('/').pop().split('#')[0].split('?')[0]`
(the segment after the last `/`, cut at the first `#`, then at the first
`?`).  For a string argument the `catch` branch is unreachable. -/
def getFilename (url : List Char) : List Char :=
  (((url.splitOn '/').getLast? ).getD []).takeWhile (· ≠ '#')
    |>.takeWhile (· ≠ '?')

/-- One global-replace pass for `/\/(quality|width|height)\/\d+\//g`:
try to match `/word/digits/` at the current position, returning the suffix
after the match. -/
def matchQWHAt (l : List Char) : Option (List Char) :=
  match l with
  | '/' :: rest =>
    let tryWord (w : List Char) : Option (List Char) :=
      if w.isPrefixOf rest then
        match rest.drop w.length with
        | '/' :: rest2 =>
          let ds := rest2.takeWhile Char.isDigit
          if ds ≠ [] then
            match rest2.drop ds.length with
            | '/' :: rest3 => some rest3
            | _ => none
          else none
        | _ => none
      else none
    (tryWord (S "quality")).orElse fun _ =>
      (tryWord (S "width")).orElse fun _ => tryWord (S "height")
  | _ => none

/-- Global replace of `/\/(quality|width|height)\/\d+\//g` by `/`
(fuel-driven scan; fuel `= l.length` always suffices since every step
consumes at least one character). -/
def replQWH : Nat → List Char → List Char
  | 0, _ => []
  | _, [] => []
  | Nat.succ n, l@(c :: rest) =>
    match matchQWHAt l with
    | some rem => '/' :: replQWH n rem
    | none => c :: replQWH n rest

/-- Match `[-_]\d+x\d+` at the current position (greedy digit runs),
returning the suffix after the match. -/
def matchDimAt (l : List Char) : Option (List Char) :=
  match l with
  | c :: rest =>
    if c = '-' || c = '_' then
      let d1 := rest.takeWhile Char.isDigit
      if d1 ≠ [] then
        match rest.drop d1.length with
        | 'x' :: rest2 =>
          let d2 := rest2.takeWhile Char.isDigit
          if d2 ≠ [] then some (rest2.drop d2.length) else none
        | _ => none
      else none
    else none
  | [] => none

/-- Global replace of `/[-_]\d+x\d+/g` by the empty string. -/
def replDim : Nat → List Char → List Char
  | 0, _ => []
  | _, [] => []
  | Nat.succ n, l@(c :: rest) =>
    match matchDimAt l with
    | some rem => replDim n rem
    | none => c :: replDim n rest

/-- Match `/\/(small|medium|large|thumbnail)\//` at the current position. -/
def matchSizeAt (l : List Char) : Option (List Char) :=
  match l with
  | '/' :: rest =>
    let tryWord (w : List Char) : Option (List Char) :=
      if w.isPrefixOf rest then
        match rest.drop w.length with
        | '/' :: rest2 => some rest2
        | _ => none
      else none
    (tryWord (S "small")).orElse fun _ =>
      (tryWord (S "medium")).orElse fun _ =>
        (tryWord (S "large")).orElse fun _ => tryWord (S "thumbnail")
  | _ => none

/-- Global replace of `/\/(small|medium|large|thumbnail)\//g` by `/`. -/
def replSize : Nat → List Char → List Char
  | 0, _ => []
  | _, [] => []
  | Nat.succ n, l@(c :: rest) =>
    match matchSizeAt l with
    | some rem => '/' :: replSize n rem
    | none => c :: replSize n rest

/-- Global replace of `/\/{2,}/g` by `/`: a run of two or more slashes
collapses to one (fuel-driven, fuel `= l.length` suffices). -/
def replSlashesF : Nat → List Char → List Char
  | 0, _ => []
  | _, [] => []
  | Nat.succ n, '/' :: rest =>
    let run := rest.takeWhile (· = '/')
    '/' :: replSlashesF n (rest.drop run.length)
  | Nat.succ n, c :: rest => c :: replSlashesF n rest

/-- Global replace of `/\/{2,}/g` by `/`. -/
def replSlashes (l : List Char) : List Char := replSlashesF l.length l

/-- `normalizeUrl(url)` from `src/wp-script/lib/utils.js`: cut at the first
`?` or `#`, lowercase, then the four global regex replaces (size path
segments, `-123x456` dimension suffixes, size-tier segments, repeated
slashes).  The `catch` branch is unreachable for string input. -/
def normalizeUrl (url : List Char) : List Char :=
  let clean := (url.takeWhile (fun c => c ≠ '?' && c ≠ '#')).map Char.toLower
  let s1 := replQWH clean.length clean
  let s2 := replDim s1.length s1
  let s3 := replSize s2.length s2
  replSlashes s3

/-- `normalizeFilename(filename)`: lowercase, strip `-`/`_`, strip the
regex-`\.[^/.]+$` extension (a final dot segment containing neither `/`
nor `.`). -/
def stripExtension (l : List Char) : List Char :=
  let r := l.reverse
  let suff := r.takeWhile (· ≠ '.')
  match r.drop suff.length with
  | '.' :: stem =>
    if suff ≠ [] && suff.all (fun c => c ≠ '/' && c ≠ '.') then stem.reverse else l
  | _ => l

/-- `normalizeFilename` from `src/wp-script/lib/utils.js`. -/
def normalizeFilename (filename : List Char) : List Char :=
  stripExtension ((filename.map Char.toLower).filter (fun c => c ≠ '_' && c ≠ '-'))

/-- Scheme characters allowed after the first letter of a URL scheme. -/
def schemeChar (c : Char) : Bool :=
  c.isAlpha || c.isDigit || c = '+' || c = '-' || c = '.'

/-- Model of the WHATWG `new URL(string)` constructor (external platform
code called by `isValidUrl`): tabs and newlines are stripped, the ends are
trimmed of controls/spaces, a scheme (`alpha (alphanum|+|-|.)* :`) is
required; a special scheme (`http`, `https`, `ws`, `wss`, `ftp`) further
requires a nonempty host free of whitespace and host-terminating
delimiters; other schemes accept any opaque remainder. -/
def jsUrlParses (url : List Char) : Bool :=
  let l := url.filter (fun c => c ≠ '\t' && c ≠ '\n' && c ≠ '\x0d')
  let l := (l.dropWhile (· ≤ ' ')).reverse.dropWhile (· ≤ ' ') |>.reverse
  match l with
  | c :: rest =>
    if c.isAlpha then
      let sch := rest.takeWhile schemeChar
      match rest.drop sch.length with
      | ':' :: rem =>
        let scheme := (c :: sch).map Char.toLower
        if scheme = S "http" || scheme = S "https" || scheme = S "ws" ||
            scheme = S "wss" || scheme = S "ftp" then
          let afterSlashes := rem.dropWhile (· = '/')
          let host := afterSlashes.takeWhile
            (fun c => c ≠ '/' && c ≠ '?' && c ≠ '#' && c ≠ ':' && c ≠ '\\')
          host ≠ [] && host.all (fun c => !wsChar c && c ≠ '@' && c ≠ '[' && c ≠ ']')
        else true
      | _ => false
    else false
  | [] => false

/-- `isValidUrl(string)` from `src/wp-script/lib/utils.js`: `new URL` does
not throw. -/
def isValidUrl (url : List Char) : Bool := jsUrlParses url

/-- Does `d` reoccur after only non-newline characters?  (The `(.*?)\1`
tail of the `isBoldMarkdown` regex.) -/
def closesDelim (d : List Char) : List Char → Bool
  | [] => false
  | l@(c :: rest) => d.isPrefixOf l || (!isNL c && closesDelim d rest)

/-- Is there a `d...d` pair with non-newline interior anywhere in `l`? -/
def hasDelimPair (d : List Char) : List Char → Bool
  | [] => false
  | l@(_ :: rest) =>
    (d.isPrefixOf l && closesDelim d (l.drop d.length)) || hasDelimPair d rest

/-- `isBoldMarkdown(text)`: the test of `/(\*\*|__)(.*?)\1/g` against the
text. -/
def isBoldMarkdown (l : List Char) : Bool :=
  hasDelimPair (S "**") l || hasDelimPair (S "__") l

/-! ## The block/inline node records

The source represents nodes as loosely-typed records with a string `type`
discriminant; the closed sum below covers exactly the record shapes the
source constructs and consumes.  A `text` record's absent style flag and an
explicit `false` behave identically everywhere in the source, so flags are
plain `Bool`s. -/

/-- Style flags of a `text` node. -/
structure TextAttrs where
  bold : Bool := false
  italic : Bool := false
  underline : Bool := false
  strikethrough : Bool := false
  code : Bool := false
deriving DecidableEq, Repr

/-- Block/inline nodes of the document representation. -/
inductive Node where
  | text (s : List Char) (attrs : TextAttrs)
  | link (url : List Char) (children : List Node)
  | heading (level : Nat) (children : List Node)
  | paragraph (children : List Node)
  | listB (ordered : Bool) (children : List Node)
  | listItem (children : List Node)
  | quote (children : List Node)
  | codeB (language : List Char) (children : List Node)
  | image (url : List Char) (alternativeText : List Char)
  | thematicBreak

/-- The `children` field a node would expose in JS (`undefined`, i.e. `[]`,
for nodes without one). -/
def Node.childrenOf : Node → List Node
  | .link _ ch => ch
  | .heading _ ch => ch
  | .paragraph ch => ch
  | .listB _ ch => ch
  | .listItem ch => ch
  | .quote ch => ch
  | .codeB _ ch => ch
  | _ => []

/-! ## `parseInlineParagraphFormatting` (`src/wp-script/functions.js` 24-73)

The function runs five global regexes in a fixed order -- `\*\*(.*?)\*\*`
(bold), `_(.*?)_` (italic), `~~(.*?)~~` (strikethrough), `<u>(.*?)<\/u>`
(underline), `\[(.*?)\]\((.*?)\)` (link) -- repeatedly taking the first
match of the current pattern in the remaining text, pushing the text before
the match (when nonempty) and the styled node, and continuing after the
match. -/

/-- Lazy `(.*?)` followed by the literal `cls`: the shortest non-newline
prefix after which `cls` occurs; returns the prefix and the suffix after
`cls`. -/
def innerUpto (cls : List Char) : List Char → Option (List Char × List Char)
  | [] => if cls.isPrefixOf [] then some ([], []) else none
  | l@(c :: rest) =>
    if cls.isPrefixOf l then some ([], l.drop cls.length)
    else if isNL c then none
    else (innerUpto cls rest).map (fun p => (c :: p.1, p.2))

/-- Leftmost match of `opn(.*?)cls`: returns (text before the match, the
lazy group, text after the match). -/
def findPair (opn cls : List Char) : List Char → Option (List Char × List Char × List Char)
  | [] => none
  | l@(c :: rest) =>
    match if opn.isPrefixOf l then innerUpto cls (l.drop opn.length) else none with
    | some (inner, after) => some ([], inner, after)
    | none => (findPair opn cls rest).map (fun p => (c :: p.1, p.2.1, p.2.2))

/-- Leftmost match of `\[(.*?)\]\((.*?)\)`: returns
(before, label, url, after). -/
def findLinkMatch : List Char → Option (List Char × List Char × List Char × List Char)
  | [] => none
  | l@(c :: rest) =>
    match
      (if l.head? = some '[' then
        (innerUpto (S "](") (l.drop 1)).bind fun (label, r1) =>
          (innerUpto (S ")") r1).map fun (url, r2) => (label, url, r2)
      else none) with
    | some (label, url, after) => some ([], label, url, after)
    | none => (findLinkMatch rest).map (fun p => (c :: p.1, p.2.1, p.2.2.1, p.2.2.2))

/-- `processLinkMatch(match)` (`src/wp-script/lib/utils.js` 74-84, inlined
at `functions.js` 44-54): an invalid URL demotes the whole match to a plain
text node; otherwise a link node with a single text child. -/
def processLinkMatch (full label url : List Char) : Node :=
  if !isValidUrl url then Node.text full {}
  else Node.link url [Node.text label {}]

/-- The `match[0]` string of a link match. -/
def linkFull (label url : List Char) : List Char :=
  '[' :: label ++ ']' :: '(' :: url ++ [')']

/-- One non-link style pass: `while ((match = regex.exec(remainingText)))`.
Fuel `= remainingText.length + 1` always suffices (each iteration consumes
at least `opn.length + cls.length ≥ 2` characters). -/
def stylePassF (opn cls : List Char) (mk : List Char → Node) :
    Nat → List Node × List Char → List Node × List Char
  | 0, st => st
  | Nat.succ n, (acc, rem) =>
    match findPair opn cls rem with
    | none => (acc, rem)
    | some (before, inner, after) =>
      stylePassF opn cls mk n
        (acc ++ (if before = [] then [] else [Node.text before {}]) ++ [mk inner], after)

/-- The link pass (same loop with the two-group link regex). -/
def linkPassF : Nat → List Node × List Char → List Node × List Char
  | 0, st => st
  | Nat.succ n, (acc, rem) =>
    match findLinkMatch rem with
    | none => (acc, rem)
    | some (before, label, url, after) =>
      linkPassF n
        (acc ++ (if before = [] then [] else [Node.text before {}]) ++
          [processLinkMatch (linkFull label url) label url], after)

/-- Run one style pass with adequate fuel. -/
def stylePass (opn cls : List Char) (mk : List Char → Node)
    (st : List Node × List Char) : List Node × List Char :=
  stylePassF opn cls mk (st.2.length + 1) st

/-- Run the link pass with adequate fuel. -/
def linkPass (st : List Node × List Char) : List Node × List Char :=
  linkPassF (st.2.length + 1) st

/-- `parseInlineParagraphFormatting(text)` from
`src/wp-script/functions.js` 24-73. -/
def parseInlineParagraphFormatting (text : List Char) : List Node :=
  let st0 : List Node × List Char := ([], text)
  let st1 := stylePass (S "**") (S "**") (fun i => Node.text i {bold := true}) st0
  let st2 := stylePass (S "_") (S "_") (fun i => Node.text i {italic := true}) st1
  let st3 := stylePass (S "~~") (S "~~") (fun i => Node.text i {strikethrough := true}) st2
  let st4 := stylePass (S "<u>") (S "</u>") (fun i => Node.text i {underline := true}) st3
  let st5 := linkPass st4
  st5.1 ++ (if st5.2 = [] then [] else [Node.text st5.2 {}])

/-! ## The image pipeline (`src/wp-script/functions.js` 126-230)

`processMarkdownImages` scans the Markdown with
`/!\[(.*?)\]\((.*?)(?:\s+"(.*?)")?\)/g` via `matchAll` and folds over the
matches, threading the process-wide image cache
(`src/unnamed/part_001`), the per-run `processedFiles` map, the stats
counters and the result string.  The network call
`downloadAndUploadFile` + `response.json()` + the
`!uploadData?.url || !uploadData?.name` check are folded into an oracle
`List Char → Option UploadResp` (`none` = thrown download/upload error or
missing first array element; empty `url`/`name` model falsy fields). -/

/-- The title tail of a source image match. -/
structure ImgMatch where
  full : List Char
  alt : List Char
  src : List Char
  title : Option (List Char)
deriving DecidableEq, Repr

/-- The lazy title group: `(.*?)` up to a `"` immediately followed by `)`
(the regex tail `")?\)`); backtracking lets the group swallow interior
quotes. -/
def titleUpto : List Char → Option (List Char × List Char)
  | [] => none
  | '"' :: ')' :: rem => some ([], rem)
  | c :: rest =>
    if isNL c then none
    else (titleUpto rest).map (fun p => (c :: p.1, p.2))

/-- The optional group `(?:\s+"(.*?)")` tried at a candidate end of the
`src` group: a maximal nonempty whitespace run (greedy `\s+` must be
followed by `"`, and no whitespace char is `"`), the opening quote, then
the lazy title. -/
def titleAttempt (l : List Char) : Option (List Char × List Char) :=
  let ws := l.takeWhile wsChar
  if ws = [] then none
  else
    match l.drop ws.length with
    | '"' :: r2 => titleUpto r2
    | _ => none

/-- The lazy `src` group `(.*?)` with the regex tail `(?:\s+"(.*?)")?\)`:
at each candidate end, first try the title group, then a bare `)`,
otherwise extend the group by one non-newline character. -/
def srcUpto : List Char → Option (List Char × Option (List Char) × List Char)
  | [] => none
  | l@(c :: rest) =>
    match titleAttempt l with
    | some (t, rem) => some ([], some t, rem)
    | none =>
      if c = ')' then some ([], none, rest)
      else if isNL c then none
      else (srcUpto rest).map (fun p => (c :: p.1, p.2.1, p.2.2))

/-- Try the image regex at the current position: `![`, lazy alt up to `](`,
then the `src`/title tail.  Returns (alt, src, title?, rest after the
match). -/
def matchImageAt : List Char → Option (List Char × List Char × Option (List Char) × List Char)
  | '!' :: '[' :: rest =>
    (innerUpto (S "](") rest).bind fun p =>
      (srcUpto p.2).map fun q => (p.1, q.1, q.2.1, q.2.2)
  | _ => none

/-- `markdown.matchAll(imageRegex)`: successive non-overlapping leftmost
matches (fuel `= l.length` suffices: every step consumes at least one
character). -/
def scanImagesF : Nat → List Char → List ImgMatch
  | 0, _ => []
  | _, [] => []
  | Nat.succ n, l@(_ :: rest) =>
    match matchImageAt l with
    | some (alt, src, title, rem) =>
      { full := l.take (l.length - rem.length), alt := alt, src := src, title := title } ::
        scanImagesF n rem
    | none => scanImagesF n rest

/-- All image-reference matches of the Markdown text, in document order. -/
def findImageMatches (l : List Char) : List ImgMatch := scanImagesF l.length l

/-- A successful upload response's first element (`{ url, name }`). -/
structure UploadResp where
  url : List Char
  name : List Char
deriving DecidableEq, Repr

/-- An image-cache record `{ url, filename }`. -/
structure ImgRecord where
  url : List Char
  filename : List Char
deriving DecidableEq, Repr

/-- `CONFIG.API.BASE_URL` from `src/wp-script/functions.js`. -/
def BASE_URL : List Char := S "http://localhost:1337"

/-- State threaded through the `processMarkdownImages` loop: the result
string, the singleton image cache, the per-run `processedFiles` map and
the four stats counters. -/
structure PState where
  result : List Char
  cache : List (List Char × ImgRecord)
  processedFiles : List (List Char × ImgRecord)
  processed : Nat
  cached : Nat
  uploaded : Nat
  failed : Nat
deriving DecidableEq, Repr

/-- `createMarkdownImage(filename, url, title)`
(`src/wp-script/functions.js` 126-128): the alt segment is the
destination filename; a non-falsy title is carried in quotes. -/
def createMarkdownImage (filename url : List Char) (title : Option (List Char)) : List Char :=
  S "![" ++ filename ++ S "](" ++ url ++
    (match title with
     | some t => if t = [] then [] else ' ' :: '"' :: t ++ ['"']
     | none => []) ++ [')']

/-- The `sourceFilename`/`processedFiles` duplicate check
(`src/wp-script/functions.js` 171-188): only performed when the extracted
filename is truthy. -/
def dedupHit (st : PState) (key : List Char) : Option ImgRecord :=
  let sourceFilename := getFilename key
  if sourceFilename ≠ [] then
    lookupA st.processedFiles (normalizeFilename sourceFilename)
  else none

/-- The body of the `for (const [fullMatch, alt, src, title] of matches)`
loop (`src/wp-script/functions.js` 150-221). -/
def processStep (oracle : List Char → Option UploadResp) (st : PState) (m : ImgMatch) :
    PState :=
  let st := { st with processed := st.processed + 1 }
  let normalizedSrc := normalizeUrl m.src
  match lookupA st.cache normalizedSrc with
  | some cachedRec =>
    { st with
      cached := st.cached + 1
      result := jsReplaceFirst st.result m.full
        (createMarkdownImage cachedRec.filename cachedRec.url m.title) }
  | none =>
    let sourceFilename := getFilename normalizedSrc
    match dedupHit st normalizedSrc with
    | some existingFile =>
      { st with
        cache := setA st.cache normalizedSrc existingFile
        cached := st.cached + 1
        result := jsReplaceFirst st.result m.full
          (createMarkdownImage existingFile.filename existingFile.url m.title) }
    | none =>
      match oracle normalizedSrc with
      | none => { st with failed := st.failed + 1 }
      | some resp =>
        if resp.url = [] || resp.name = [] then { st with failed := st.failed + 1 }
        else
          let uploadedImage : ImgRecord := ⟨BASE_URL ++ resp.url, resp.name⟩
          { st with
            cache := setA st.cache normalizedSrc uploadedImage
            processedFiles :=
              if sourceFilename ≠ [] then
                setA st.processedFiles (normalizeFilename resp.name) uploadedImage
              else st.processedFiles
            uploaded := st.uploaded + 1
            result := jsReplaceFirst st.result m.full
              (createMarkdownImage uploadedImage.filename uploadedImage.url m.title) }

/-- Fold the loop body over a list of matches. -/
def processMatches (oracle : List Char → Option UploadResp) (st : PState)
    (ms : List ImgMatch) : PState :=
  ms.foldl (processStep oracle) st

/-- Initial loop state for a run on `markdown` with the given singleton
cache contents. -/
def initPState (cache : List (List Char × ImgRecord)) (markdown : List Char) : PState :=
  { result := markdown, cache := cache, processedFiles := []
    processed := 0, cached := 0, uploaded := 0, failed := 0 }

/-- `processMarkdownImages(markdown)` (`src/wp-script/functions.js`
136-230), with the singleton cache passed in and returned as part of the
state. -/
def processMarkdownImages (oracle : List Char → Option UploadResp)
    (cache : List (List Char × ImgRecord)) (markdown : List Char) : PState :=
  processMatches oracle (initPState cache markdown) (findImageMatches markdown)

/-- `htmlToMarkdown(html)` (`src/wp-script/functions.js` 75-122): reject
empty input, convert HTML to Markdown with the Turndown service (an
external library, abstracted as the deterministic `turndown` parameter),
then run the image pipeline.  `none` embeds the thrown
`'Invalid HTML input'`. -/
def htmlToMarkdown (turndown : List Char → List Char)
    (oracle : List Char → Option UploadResp)
    (cache : List (List Char × ImgRecord)) (html : List Char) : Option PState :=
  if html = [] then none
  else some (processMarkdownImages oracle cache (turndown html))

/-- The record a loop step substitutes into the Markdown (`none` when the
step takes the failure path). -/
def stepRecord (oracle : List Char → Option UploadResp) (st : PState) (m : ImgMatch) :
    Option ImgRecord :=
  let key := normalizeUrl m.src
  match lookupA st.cache key with
  | some r => some r
  | none =>
    match dedupHit st key with
    | some r => some r
    | none =>
      match oracle key with
      | none => none
      | some resp =>
        if resp.url = [] || resp.name = [] then none
        else some ⟨BASE_URL ++ resp.url, resp.name⟩

/-! ## Markdown → block tree (`parseMarkdownToJson`,
`src/wp-script/functions.js` 232-309)

The block-level tokenizer is the external `marked` library.  `MdToken` and
`tokenize` below are *modelled from the spec* (§4.4 "Streams Markdown
through a standard block-level tokenizer"): ATX headings (`#`×1..6 plus a
space, content trimmed), fenced code blocks (` ``` `-lines, literal body),
blank-line-separated paragraphs (interrupted by headings and fences).
The per-token renderer callbacks are embedded from the source. -/

/-- A `marked` block token, restricted to the shapes the specified
fragment produces (`hr`, `blockquote` and `list` tokens exist so the
renderer is total over the source's callbacks). -/
inductive MdToken where
  | heading (depth : Nat) (text : List Char)
  | paragraph (text : List Char)
  | codeTok (body : List Char) (lang : List Char)
  | hr
  | blockquote (text : List Char)
  | listTok (ordered : Bool) (items : List (List Char))
deriving DecidableEq, Repr

/-- Split a text into lines (`\n`-separated). -/
def splitLines (l : List Char) : List (List Char) := l.splitOn '\n'

/-- Join lines with `\n`. -/
def joinLines (ls : List (List Char)) : List Char := List.intercalate ['\n'] ls

/-- A line of only whitespace. -/
def isBlankLine (l : List Char) : Bool := l.all wsChar

/-- A code-fence line: starts with three backticks. -/
def isFenceLine (l : List Char) : Bool := (S "```").isPrefixOf l

/-- The info string of a fence line. -/
def fenceLang (l : List Char) : List Char := jsTrim (l.drop 3)

/-- An ATX heading line: one to six `#` followed by a space; the token
text is the trimmed remainder. -/
def headingOf (l : List Char) : Option (Nat × List Char) :=
  let hs := l.takeWhile (· = '#')
  if 1 ≤ hs.length && hs.length ≤ 6 then
    match l.drop hs.length with
    | ' ' :: rest => some (hs.length, jsTrim rest)
    | _ => none
  else none

/-- Tokenizer modes: outside any block, inside a fence, inside a
paragraph. -/
inductive TokMode where
  | normal
  | fence (lang : List Char) (bodyRev : List (List Char))
  | para (linesRev : List (List Char))
deriving DecidableEq, Repr

/-- Tokenizer state: emitted tokens (reversed) and current mode. -/
structure TokState where
  outRev : List MdToken
  mode : TokMode
deriving DecidableEq, Repr

/-- The paragraph token text accumulated from its (reversed) lines. -/
def paraText (linesRev : List (List Char)) : List Char := joinLines linesRev.reverse

/-- One tokenizer step on the next line. -/
def tokStep (st : TokState) (l : List Char) : TokState :=
  match st.mode with
  | .normal =>
    if isBlankLine l then st
    else if isFenceLine l then { st with mode := .fence (fenceLang l) [] }
    else
      match headingOf l with
      | some (d, t) => { st with outRev := .heading d t :: st.outRev }
      | none => { st with mode := .para [l] }
  | .para acc =>
    if isBlankLine l then
      { outRev := .paragraph (paraText acc) :: st.outRev, mode := .normal }
    else if isFenceLine l then
      { outRev := .paragraph (paraText acc) :: st.outRev, mode := .fence (fenceLang l) [] }
    else
      match headingOf l with
      | some (d, t) =>
        { outRev := .heading d t :: .paragraph (paraText acc) :: st.outRev, mode := .normal }
      | none => { st with mode := .para (l :: acc) }
  | .fence lang acc =>
    if jsTrim l = S "```" then
      { outRev := .codeTok (joinLines acc.reverse) lang :: st.outRev, mode := .normal }
    else { st with mode := .fence lang (l :: acc) }

/-- Close a dangling paragraph or fence at end of input. -/
def tokFinalize (st : TokState) : List MdToken :=
  (match st.mode with
   | .normal => st.outRev
   | .para acc => .paragraph (paraText acc) :: st.outRev
   | .fence lang acc => .codeTok (joinLines acc.reverse) lang :: st.outRev).reverse

/-- Modelled from the spec: the external `marked` block tokenizer
restricted to ATX headings, fenced code and paragraphs (§4.4). -/
def tokenize (lines : List (List Char)) : List MdToken :=
  tokFinalize (lines.foldl tokStep ⟨[], .normal⟩)

/-- Test of the paragraph handler's `/!\[(.*?)\]\((.*?)\)/` image regex at
one position. -/
def imageRefAt (l : List Char) : Bool :=
  match l with
  | '!' :: '[' :: rest =>
    ((innerUpto (S "](") rest).bind fun p => innerUpto (S ")") p.2).isSome
  | _ => false

/-- `imageRegex.test(entity.text)` of the paragraph handler
(`src/wp-script/functions.js` 249-250). -/
def hasImageRef : List Char → Bool
  | [] => false
  | l@(_ :: rest) => imageRefAt l || hasImageRef rest

/-- Replace `\n` by a space (the blockquote handler's
`entity.text.replace(/\n/g, ' ')`). -/
def nlToSpace (l : List Char) : List Char := l.map (fun c => if c = '\n' then ' ' else c)

/-- The renderer callbacks of `parseMarkdownToJson`
(`src/wp-script/functions.js` 235-297) applied to one block token. -/
def renderToken : MdToken → Node
  | .heading d t => .heading d [.text t { bold := isBoldMarkdown t }]
  | .paragraph t =>
    if hasImageRef t then .paragraph [.text t {}]
    else .paragraph (parseInlineParagraphFormatting t)
  | .codeTok body lang => .codeB lang [.text (jsTrim body) {}]
  | .hr => .thematicBreak
  | .blockquote t => .quote (parseInlineParagraphFormatting (jsTrim (nlToSpace t)))
  | .listTok ordered items =>
    .listB ordered (items.map fun t => .listItem (parseInlineParagraphFormatting t))

/-- `parseMarkdownToJson(markdown)`: tokenize (spec-modelled) and render
each block token (source renderer). -/
def parseMarkdownToJson (markdown : List Char) : List Node :=
  (tokenize (splitLines markdown)).map renderToken

/-! ## `convertNodesToMarkdown` (`src/wp-script/functions.js` 311-401)

For the typed `Node` embedding the `isValidNode` and
`validateNode(node, ['level','children'])` guards always pass, and the
`alternativeText = "image"` destructuring default always finds the field
present.  Every recursive call trims its own result
(`return markdown.trim()`), which `convertNodesToMarkdown` reproduces;
`convRawList` is the untrimmed concatenation. -/

/-- The `case "text"` style wrapping, in source order: bold, italic,
underline, strikethrough, code. -/
def applyAttrs (s : List Char) (a : TextAttrs) : List Char :=
  let t := s
  let t := if a.bold then S "**" ++ t ++ S "**" else t
  let t := if a.italic then '*' :: t ++ ['*'] else t
  let t := if a.underline then S "<u>" ++ t ++ S "</u>" else t
  let t := if a.strikethrough then S "~~" ++ t ++ S "~~" else t
  if a.code then S "`" ++ t ++ S "`" else t

mutual

/-- Markdown appended by one iteration of the `nodes.forEach` switch. -/
def convNodeRaw : Node → List Char
  | .heading lvl ch =>
    List.replicate lvl '#' ++ ' ' :: convertNodesToMarkdown ch ++ S "\n\n"
  | .paragraph ch => convertNodesToMarkdown ch ++ S "\n\n"
  | .text s a => applyAttrs s a
  | .link url ch => '[' :: convertNodesToMarkdown ch ++ S "](" ++ url ++ [')']
  | .image url alt => S "![" ++ alt ++ S "](" ++ url ++ S ")\n\n"
  | .listB ordered items => convListItems ordered 0 items ++ ['\n']
  | .quote ch => S "> " ++ convertNodesToMarkdown ch ++ S "\n\n"
  | .codeB lang ch =>
    S "```" ++ lang ++ '\n' :: convertNodesToMarkdown ch ++ S "\n```\n\n"
  | .listItem ch => convertNodesToMarkdown ch
  | .thematicBreak => S "---\n\n"

/-- The `node.children.forEach((item, index) => ...)` loop of
`case "list"`; `item.children` of a child without that field is
`undefined`, converting to the empty string. -/
def convListItems (ordered : Bool) (idx : Nat) : List Node → List Char
  | [] => []
  | item :: rest =>
    (if ordered then Nat.toDigits 10 (idx + 1) ++ S ". " else S "- ") ++
      (match item with
       | .listItem ch => convertNodesToMarkdown ch
       | .link _ ch => convertNodesToMarkdown ch
       | .heading _ ch => convertNodesToMarkdown ch
       | .paragraph ch => convertNodesToMarkdown ch
       | .listB _ ch => convertNodesToMarkdown ch
       | .quote ch => convertNodesToMarkdown ch
       | .codeB _ ch => convertNodesToMarkdown ch
       | _ => []) ++
      '\n' :: convListItems ordered (idx + 1) rest

/-- Concatenated switch output over a node list (before the final trim). -/
def convRawList : List Node → List Char
  | [] => []
  | n :: ns => convNodeRaw n ++ convRawList ns

/-- `convertNodesToMarkdown(nodes)`: the forEach concatenation followed by
`markdown.trim()`. -/
def convertNodesToMarkdown (ns : List Node) : List Char := jsTrim (convRawList ns)

end

/-! ## Batch importer (`importWPData`, `src/wp-script/functions.js`
443-488)

Each mapped async callback wraps its whole body in `try`/`catch`, so any
per-post throw (missing `content.rendered`, invalid HTML, non-ok
submission response) becomes a rejection collected by
`Promise.allSettled`; the cooperative schedule is embedded sequentially,
threading the singleton image cache.  The destination `fetch` is the
`submitOk` oracle over the posted payload. -/

/-- A source post (`{ id, slug, title: { rendered }, content: { rendered } }`);
`none` models a missing `rendered` field whose access throws. -/
structure WPost where
  id : Nat
  slug : List Char
  titleRendered : Option (List Char)
  contentRendered : Option (List Char)

/-- An `allSettled` outcome. -/
inductive Outcome where
  | fulfilled
  | rejected
deriving DecidableEq, Repr

/-- The importer's collaborators: the Turndown conversion, the
image-upload oracle and the destination-post submission oracle (applied to
title, slug, content, blocksContent). -/
structure ImportEnv where
  turndown : List Char → List Char
  imgOracle : List Char → Option UploadResp
  submitOk : List Char → List Char → List Char → List Node → Bool

/-- One post's mapped callback: convert, parse, re-render, submit; every
failure is caught and becomes `rejected`.  Returns the outcome and the
image cache after this post. -/
def processPost (env : ImportEnv) (cache : List (List Char × ImgRecord)) (p : WPost) :
    Outcome × List (List Char × ImgRecord) :=
  match p.contentRendered with
  | none => (.rejected, cache)
  | some html =>
    match htmlToMarkdown env.turndown env.imgOracle cache html with
    | none => (.rejected, cache)
    | some st =>
      let json := parseMarkdownToJson st.result
      let newContent := convertNodesToMarkdown json
      match p.titleRendered with
      | none => (.rejected, st.cache)
      | some title =>
        if env.submitOk title p.slug newContent json then (.fulfilled, st.cache)
        else (.rejected, st.cache)

/-- The `data.map(...)` fan-out under the sequential embedding of the
cooperative schedule. -/
def importOutcomes (env : ImportEnv) (cache : List (List Char × ImgRecord)) :
    List WPost → List Outcome
  | [] => []
  | p :: ps =>
    let r := processPost env cache p
    r.1 :: importOutcomes env r.2 ps

/-- The importer's argument: a JS value that is an array of posts or not
an array. -/
inductive ImportInput where
  | arr (posts : List WPost)
  | notArray

/-- `importWPData(data)`: throw `'Input data must be an array'` on
non-array input, otherwise settle every post. -/
def importWPData (env : ImportEnv) (cache : List (List Char × ImgRecord)) :
    ImportInput → Except (List Char) (List Outcome)
  | .notArray => .error (S "Input data must be an array")
  | .arr posts => .ok (importOutcomes env cache posts)

/-! ## The Turndown `imageParser` rule (`src/wp-script/functions.js`
83-110)

Turndown itself is external; the custom rule's `replacement` callback is
source code.  Its return value is, per Turndown's rule contract, the
Markdown emitted for any matched `img` or `a` element. -/

/-- A DOM node as seen by the rule (`nodeName`, `getAttribute`,
`firstChild`). -/
inductive DomNode where
  | elem (tag : List Char) (attrs : List (List Char × List Char)) (children : List DomNode)
  | textN (s : List Char)

/-- `node.nodeName`. -/
def DomNode.nodeName : DomNode → List Char
  | .elem tag _ _ => tag
  | .textN _ => S "#text"

/-- `node.getAttribute(k) || ""`. -/
def DomNode.attrOr (n : DomNode) (k : List Char) : List Char :=
  match n with
  | .elem _ attrs _ => (lookupA attrs k).getD []
  | .textN _ => []

/-- `node.firstChild` (`null` = `none`). -/
def DomNode.firstChild : DomNode → Option DomNode
  | .elem _ _ (c :: _) => some c
  | _ => none

/-- The `![alt-or-"image"](src "title"?)` template shared by both image
branches of the rule. -/
def mdImageOf (alt src title : List Char) : List Char :=
  S "![" ++ (if alt = [] then S "image" else alt) ++ S "](" ++ src ++
    (if title = [] then [] else ' ' :: '"' :: title ++ ['"']) ++ [')']

/-- The `replacement(content, node)` callback of the `imageParser` rule. -/
def imageParserReplacement (content : List Char) (node : DomNode) : List Char :=
  if node.nodeName = S "A" &&
      (node.firstChild.map (fun c => decide (c.nodeName = S "IMG"))).getD false then
    match node.firstChild with
    | some img =>
      mdImageOf (img.attrOr (S "alt")) (img.attrOr (S "src")) (img.attrOr (S "title"))
    | none => content
  else if node.nodeName = S "IMG" then
    mdImageOf (node.attrOr (S "alt")) (node.attrOr (S "src")) (node.attrOr (S "title"))
  else content

/-! ## Derived definitions used by the claim statements -/

/-- A destination (rehosted) URL: one the pipeline itself constructed as
`CONFIG.API.BASE_URL + uploadData.url`. -/
def isDestUrl (u : List Char) : Bool := BASE_URL.isPrefixOf u

/-- Every record reachable in a cache/processedFiles map carries a
destination URL. -/
def recordsDest (c : List (List Char × ImgRecord)) : Prop :=
  ∀ k r, lookupA c k = some r → isDestUrl r.url = true

/-- Apply the per-match substitutions of a run in order (the sequence of
`result.replace(fullMatch, createMarkdownImage(...))` calls). -/
def applyRepls : List Char → List (ImgMatch × ImgRecord) → List Char
  | r, [] => r
  | r, (m, q) :: rest =>
    applyRepls (jsReplaceFirst r m.full (createMarkdownImage q.filename q.url m.title)) rest

/-! ## Basic map lemmas -/

theorem lookupA_setA {β : Type} (m : List (List Char × β)) (k k' : List Char) (v : β) :
    lookupA (setA m k v) k' = if k = k' then some v else lookupA m k' := by
  induction m with
  | nil => by_cases h : k = k' <;> simp [setA, lookupA, h]
  | cons hd tl ih =>
    obtain ⟨k0, v0⟩ := hd
    by_cases h0 : k0 = k
    · subst h0
      by_cases h1 : k0 = k' <;> simp [setA, lookupA, h1]
    · by_cases h1 : k0 = k'
      · subst h1
        have h2 : k ≠ k0 := fun hh => h0 hh.symm
        simp [setA, lookupA, h0, h2]
      · simp [setA, lookupA, h0, h1, ih]

theorem lookupA_setA_self {β : Type} (m : List (List Char × β)) (k : List Char) (v : β) :
    lookupA (setA m k v) k = some v := by
  simp [lookupA_setA]

theorem lookupA_setA_ne {β : Type} (m : List (List Char × β)) (k k' : List Char) (v : β)
    (h : k ≠ k') : lookupA (setA m k v) k' = lookupA m k' := by
  simp [lookupA_setA, h]

/-! ## Case characterizations of the loop body -/

theorem processStep_hit (oracle : List Char → Option UploadResp) (st : PState)
    (m : ImgMatch) (r : ImgRecord)
    (h : lookupA st.cache (normalizeUrl m.src) = some r) :
    processStep oracle st m =
      { st with
        processed := st.processed + 1
        cached := st.cached + 1
        result := jsReplaceFirst st.result m.full
          (createMarkdownImage r.filename r.url m.title) } := by
  simp [processStep, h]

theorem processStep_dedup (oracle : List Char → Option UploadResp) (st : PState)
    (m : ImgMatch) (r : ImgRecord)
    (h0 : lookupA st.cache (normalizeUrl m.src) = none)
    (h1 : dedupHit st (normalizeUrl m.src) = some r) :
    processStep oracle st m =
      { st with
        processed := st.processed + 1
        cached := st.cached + 1
        cache := setA st.cache (normalizeUrl m.src) r
        result := jsReplaceFirst st.result m.full
          (createMarkdownImage r.filename r.url m.title) } := by
  have h1' : dedupHit { st with processed := st.processed + 1 } (normalizeUrl m.src) =
      some r := h1
  simp [processStep, h0, h1']

theorem processStep_upload (oracle : List Char → Option UploadResp) (st : PState)
    (m : ImgMatch) (resp : UploadResp)
    (h0 : lookupA st.cache (normalizeUrl m.src) = none)
    (h1 : dedupHit st (normalizeUrl m.src) = none)
    (h2 : oracle (normalizeUrl m.src) = some resp)
    (hu : resp.url ≠ []) (hn : resp.name ≠ []) :
    processStep oracle st m =
      { st with
        processed := st.processed + 1
        uploaded := st.uploaded + 1
        cache := setA st.cache (normalizeUrl m.src) ⟨BASE_URL ++ resp.url, resp.name⟩
        processedFiles :=
          if getFilename (normalizeUrl m.src) ≠ [] then
            setA st.processedFiles (normalizeFilename resp.name)
              ⟨BASE_URL ++ resp.url, resp.name⟩
          else st.processedFiles
        result := jsReplaceFirst st.result m.full
          (createMarkdownImage resp.name (BASE_URL ++ resp.url) m.title) } := by
  have h1' : dedupHit { st with processed := st.processed + 1 } (normalizeUrl m.src) =
      none := h1
  simp [processStep, h0, h1', h2, hu, hn]

theorem processStep_fail (oracle : List Char → Option UploadResp) (st : PState)
    (m : ImgMatch)
    (h : stepRecord oracle st m = none) :
    processStep oracle st m =
      { st with processed := st.processed + 1, failed := st.failed + 1 } := by
  unfold stepRecord at h
  cases h0 : lookupA st.cache (normalizeUrl m.src) with
  | some r => simp [h0] at h
  | none =>
    cases h1 : dedupHit st (normalizeUrl m.src) with
    | some r => simp [h0, h1] at h
    | none =>
      have h1' : dedupHit { st with processed := st.processed + 1 }
          (normalizeUrl m.src) = none := h1
      cases h2 : oracle (normalizeUrl m.src) with
      | none => simp [processStep, h0, h1', h2]
      | some resp =>
        simp [h0, h1, h2] at h
        by_cases hc : resp.url = [] ∨ resp.name = []
        · have hc' : (resp.url = [] || resp.name = []) = true := by
            rcases hc with hc | hc <;> simp [hc]
          simp [processStep, h0, h1', h2, hc']
        · push_neg at hc
          simp [hc.1, hc.2] at h

theorem stepRecord_some_facts (oracle : List Char → Option UploadResp) (st : PState)
    (m : ImgMatch) (r : ImgRecord)
    (h : stepRecord oracle st m = some r) :
    (processStep oracle st m).result =
        jsReplaceFirst st.result m.full
          (createMarkdownImage r.filename r.url m.title) ∧
      lookupA (processStep oracle st m).cache (normalizeUrl m.src) = some r ∧
      (processStep oracle st m).failed = st.failed := by
  unfold stepRecord at h
  cases h0 : lookupA st.cache (normalizeUrl m.src) with
  | some r0 =>
    simp [h0] at h
    subst h
    rw [processStep_hit oracle st m r0 h0]
    exact ⟨rfl, h0, rfl⟩
  | none =>
    cases h1 : dedupHit st (normalizeUrl m.src) with
    | some r1 =>
      simp [h0, h1] at h
      subst h
      rw [processStep_dedup oracle st m r1 h0 h1]
      exact ⟨rfl, lookupA_setA_self _ _ _, rfl⟩
    | none =>
      cases h2 : oracle (normalizeUrl m.src) with
      | none => simp [h0, h1, h2] at h
      | some resp =>
        by_cases hu : resp.url = []
        · simp [h0, h1, h2, hu] at h
        · by_cases hn : resp.name = []
          · simp [h0, h1, h2, hn] at h
          · simp [h0, h1, h2, hu, hn] at h
            rw [processStep_upload oracle st m resp h0 h1 h2 hu hn]
            subst h
            exact ⟨rfl, lookupA_setA_self _ _ _, rfl⟩

theorem processStep_cache_mono (oracle : List Char → Option UploadResp) (st : PState)
    (m : ImgMatch) (k : List Char) (v : ImgRecord)
    (h : lookupA st.cache k = some v) :
    lookupA (processStep oracle st m).cache k = some v := by
  cases h0 : lookupA st.cache (normalizeUrl m.src) with
  | some r0 => rw [processStep_hit oracle st m r0 h0]; exact h
  | none =>
    have hne : normalizeUrl m.src ≠ k := fun hh => by rw [hh, h] at h0; cases h0
    cases h1 : dedupHit st (normalizeUrl m.src) with
    | some r1 =>
      rw [processStep_dedup oracle st m r1 h0 h1]
      simpa [lookupA_setA, hne] using h
    | none =>
      cases h2 : oracle (normalizeUrl m.src) with
      | none =>
        have hn : stepRecord oracle st m = none := by
          unfold stepRecord; simp [h0, h1, h2]
        rw [processStep_fail oracle st m hn]; exact h
      | some resp =>
        by_cases hu : resp.url = []
        · have hn : stepRecord oracle st m = none := by
            unfold stepRecord; simp [h0, h1, h2, hu]
          rw [processStep_fail oracle st m hn]; exact h
        · by_cases hn2 : resp.name = []
          · have hn : stepRecord oracle st m = none := by
              unfold stepRecord; simp [h0, h1, h2, hn2]
            rw [processStep_fail oracle st m hn]; exact h
          · rw [processStep_upload oracle st m resp h0 h1 h2 hu hn2]
            simpa [lookupA_setA, hne] using h

theorem processStep_failed_eq (oracle : List Char → Option UploadResp) (st : PState)
    (m : ImgMatch) :
    (processStep oracle st m).failed =
      if stepRecord oracle st m = none then st.failed + 1 else st.failed := by
  cases h : stepRecord oracle st m with
  | none => rw [processStep_fail oracle st m h]; simp
  | some r => simp [(stepRecord_some_facts oracle st m r h).2.2, h]

/-! ## Fold-level lemmas -/

theorem processMatches_cons (oracle : List Char → Option UploadResp) (st : PState)
    (m : ImgMatch) (ms : List ImgMatch) :
    processMatches oracle st (m :: ms) = processMatches oracle (processStep oracle st m) ms :=
  rfl

theorem processMatches_failed_mono (oracle : List Char → Option UploadResp) :
    ∀ (ms : List ImgMatch) (st : PState), st.failed ≤ (processMatches oracle st ms).failed := by
  intro ms
  induction ms with
  | nil => intro st; exact le_refl _
  | cons m ms ih =>
    intro st
    have h1 : st.failed ≤ (processStep oracle st m).failed := by
      rw [processStep_failed_eq]; split <;> omega
    exact le_trans h1 (ih (processStep oracle st m))

theorem processMatches_cache_mono (oracle : List Char → Option UploadResp) :
    ∀ (ms : List ImgMatch) (st : PState) (k : List Char) (v : ImgRecord),
      lookupA st.cache k = some v →
      lookupA (processMatches oracle st ms).cache k = some v := by
  intro ms
  induction ms with
  | nil => intro st k v h; exact h
  | cons m ms ih =>
    intro st k v h
    exact ih (processStep oracle st m) k v (processStep_cache_mono oracle st m k v h)

/-- A run whose `failed` counter does not move substitutes a record for
every match, leaves each record retrievable under its normalized key in
the final cache, and only grows the cache. -/
theorem run_success (oracle : List Char → Option UploadResp) :
    ∀ (ms : List ImgMatch) (st : PState),
      (processMatches oracle st ms).failed = st.failed →
      ∃ rs : List ImgRecord,
        rs.length = ms.length ∧
        (processMatches oracle st ms).result = applyRepls st.result (ms.zip rs) ∧
        (∀ p ∈ ms.zip rs,
          lookupA (processMatches oracle st ms).cache (normalizeUrl p.1.src) = some p.2) ∧
        (∀ k v, lookupA st.cache k = some v →
          lookupA (processMatches oracle st ms).cache k = some v) := by
  intro ms
  induction ms with
  | nil =>
    intro st _
    exact ⟨[], rfl, rfl, by simp, fun k v h => h⟩
  | cons m ms ih =>
    intro st hf
    rw [processMatches_cons] at hf
    have hst1 : st.failed ≤ (processStep oracle st m).failed := by
      rw [processStep_failed_eq]; split <;> omega
    have hst2 : (processStep oracle st m).failed ≤
        (processMatches oracle (processStep oracle st m) ms).failed :=
      processMatches_failed_mono oracle ms _
    have heq : (processStep oracle st m).failed = st.failed := by omega
    have hsome : ∃ r, stepRecord oracle st m = some r := by
      cases h : stepRecord oracle st m with
      | none =>
        rw [processStep_failed_eq, if_pos h] at heq; omega
      | some r => exact ⟨r, rfl⟩
    obtain ⟨r, hr⟩ := hsome
    obtain ⟨hres, hkey, hfail⟩ := stepRecord_some_facts oracle st m r hr
    have hf' : (processMatches oracle (processStep oracle st m) ms).failed =
        (processStep oracle st m).failed := by omega
    obtain ⟨rs, hlen, hres', hkeys, hmono⟩ := ih (processStep oracle st m) hf'
    refine ⟨r :: rs, by simp [hlen], ?_, ?_, ?_⟩
    · rw [processMatches_cons]
      rw [hres']
      simp [applyRepls, hres, List.zip]
    · intro p hp
      rcases List.mem_cons.mp (by simpa using hp) with hp1 | hp2
      · subst hp1
        rw [processMatches_cons]
        exact hmono _ _ hkey
      · rw [processMatches_cons]
        exact hkeys _ hp2
    · intro k v h
      rw [processMatches_cons]
      exact hmono k v (processStep_cache_mono oracle st m k v h)

/-- A run all of whose matches hit the cache (with the given records)
only rewrites the result and bumps `processed`/`cached`. -/
theorem run_allhits (oracle : List Char → Option UploadResp) :
    ∀ (ms : List ImgMatch) (st : PState) (rs : List ImgRecord),
      rs.length = ms.length →
      (∀ p ∈ ms.zip rs, lookupA st.cache (normalizeUrl p.1.src) = some p.2) →
      processMatches oracle st ms =
        { st with
          result := applyRepls st.result (ms.zip rs)
          processed := st.processed + ms.length
          cached := st.cached + ms.length } := by
  intro ms
  induction ms with
  | nil =>
    intro st rs _ _
    simp [processMatches, applyRepls]
  | cons m ms ih =>
    intro st rs hlen hhits
    cases rs with
    | nil => simp at hlen
    | cons r rs =>
      have hhit : lookupA st.cache (normalizeUrl m.src) = some r :=
        hhits (m, r) (by simp)
      have hrec := ih
        { st with
          result := jsReplaceFirst st.result m.full
            (createMarkdownImage r.filename r.url m.title)
          processed := st.processed + 1
          cached := st.cached + 1 }
        rs (by simpa using hlen)
        (fun p hp => hhits p (by simp [hp]))
      rw [processMatches_cons, processStep_hit oracle st m r hhit, hrec]
      simp [applyRepls, List.zip, Nat.add_assoc, Nat.add_comm, Nat.add_left_comm]

/-! ## Claim theorems -/

/-- C7: `parseInlineParagraphFormatting "**bold** text [link](https://a.b)"`
returns exactly three nodes in order: a bold Text "bold", a plain Text
" text ", and a Link to "https://a.b" with a single Text child "link". -/
theorem c7_inline_test_vector :
    parseInlineParagraphFormatting (S "**bold** text [link](https://a.b)") =
      [Node.text (S "bold") { bold := true },
       Node.text (S " text ") {},
       Node.link (S "https://a.b") [Node.text (S "link") {}]] := rfl

/-- C8: a link match whose target fails URL validation is demoted to a
plain Text node carrying the literal bracket syntax (never a Link node,
never a throw), and in particular
`parseInline "[x](not a url)"` is a single plain Text node with the whole
input. -/
theorem c8_invalid_link_demoted :
    (∀ full label url : List Char, isValidUrl url = false →
        processLinkMatch full label url = Node.text full {}) ∧
      parseInlineParagraphFormatting (S "[x](not a url)") =
        [Node.text (S "[x](not a url)") {}] := by
  constructor
  · intro full label url h
    simp [processLinkMatch, h]
  · rfl

/-- C8 witness: the general demotion applied at the concrete invalid
target `"not a url"`. -/
theorem c8_witness :
    isValidUrl (S "not a url") = false ∧
      processLinkMatch (S "[x](not a url)") (S "x") (S "not a url") =
        Node.text (S "[x](not a url)") {} :=
  ⟨rfl, c8_invalid_link_demoted.1 _ _ _ rfl⟩

/-- The anchor node of C6's failing input:
`<a href="https://example.com">click</a>`. -/
def c6Anchor : DomNode :=
  .elem (S "A") [(S "href", S "https://example.com")] [.textN (S "click")]

/-- The anchor-wrapping-an-image node
`<a href="x"><img src="http://s/p.png" alt="al" title="t"></a>`. -/
def c6AnchorImg : DomNode :=
  .elem (S "A") [(S "href", S "x")]
    [.elem (S "IMG") [(S "src", S "http://s/p.png"), (S "alt", S "al"), (S "title", S "t")] []]

/-- C6 (code bug): the `imageParser` rule returns only `content` for an
anchor that does not wrap an image, so `<a href="https://example.com">click</a>`
renders as `click` -- the anchor is dropped instead of rendering the
standard Markdown link `[click](https://example.com)` that the rule's own
comment ("use default behavior") and the spec promise.  The
anchor-wrapping-image branch does render the image markup. -/
theorem c6_anchor_link_dropped :
    imageParserReplacement (S "click") c6Anchor = S "click" ∧
      S "click" ≠ S "[click](https://example.com)" ∧
      imageParserReplacement [] c6AnchorImg = S "![al](http://s/p.png \"t\")" := by
  refine ⟨rfl, ?_, rfl⟩
  decide

/-- C10: every successful substitution (cache hit, dedup, or fresh upload,
i.e. `stepRecord = some r`) rewrites the reference with the destination
filename as the alt segment -- the original alt text never appears in the
replacement -- while the optional title is carried over; a failed image
leaves its reference untouched. -/
theorem c10_alt_replaced_title_kept :
    ∀ (oracle : List Char → Option UploadResp) (st : PState) (m : ImgMatch),
      (∀ r, stepRecord oracle st m = some r →
        (processStep oracle st m).result =
          jsReplaceFirst st.result m.full
            (S "![" ++ r.filename ++ S "](" ++ r.url ++
              (match m.title with
               | some t => if t = [] then [] else ' ' :: '"' :: t ++ ['"']
               | none => []) ++ [')'])) ∧
      (stepRecord oracle st m = none →
        (processStep oracle st m).result = st.result) := by
  intro oracle st m
  constructor
  · intro r h
    exact (stepRecord_some_facts oracle st m r h).1
  · intro h
    rw [processStep_fail oracle st m h]

/-- The concrete state of the C10 witness: the result is a single image
reference with alt `old alt` and title `cap`, and the cache already maps
its normalized source to an uploaded record. -/
def c10St : PState :=
  { result := S "![old alt](http://x.com/a.png \"cap\")"
    cache := [(S "http:/x.com/a.png",
      ⟨S "http://localhost:1337/uploads/a.png", S "a.png"⟩)]
    processedFiles := [], processed := 0, cached := 0, uploaded := 0, failed := 0 }

/-- The single image match of `c10St.result`. -/
def c10M : ImgMatch :=
  { full := S "![old alt](http://x.com/a.png \"cap\")"
    alt := S "old alt"
    src := S "http://x.com/a.png"
    title := some (S "cap") }

/-- C10 witness: the cache-hit substitution replaces `old alt` by the
destination filename and keeps the title; with an empty cache and a failing
oracle the reference is untouched. -/
theorem c10_witness :
    (processStep (fun _ => none) c10St c10M).result =
      S "![a.png](http://localhost:1337/uploads/a.png \"cap\")" ∧
      (processStep (fun _ => none) { c10St with cache := [] } c10M).result =
        S "![old alt](http://x.com/a.png \"cap\")" := by
  constructor
  · rw [(c10_alt_replaced_title_kept (fun _ => none) c10St c10M).1
      ⟨S "http://localhost:1337/uploads/a.png", S "a.png"⟩ rfl]
    rfl
  · rw [(c10_alt_replaced_title_kept (fun _ => none) { c10St with cache := [] } c10M).2 rfl]
    rfl

/-- C3: (i) a match whose processing fails (`stepRecord = none`) only bumps
the `processed` and `failed` counters -- the result string, the caches and
the other counters are untouched -- and the fold continues with the
remaining matches from exactly that state; (ii) a run over a document all
of whose image downloads fail returns the input Markdown byte-identical,
with `failed` equal to the number of image references. -/
theorem c3_per_image_failure_isolation :
    (∀ (oracle : List Char → Option UploadResp) (st : PState) (m : ImgMatch)
        (ms : List ImgMatch),
      stepRecord oracle st m = none →
        processMatches oracle st (m :: ms) =
          processMatches oracle
            { st with processed := st.processed + 1, failed := st.failed + 1 } ms) ∧
      (∀ (oracle : List Char → Option UploadResp) (md : List Char),
        (∀ m ∈ findImageMatches md, oracle (normalizeUrl m.src) = none) →
          processMarkdownImages oracle [] md =
            { result := md, cache := [], processedFiles := []
              processed := (findImageMatches md).length, cached := 0, uploaded := 0
              failed := (findImageMatches md).length }) := by
  constructor
  · intro oracle st m ms h
    rw [processMatches_cons, processStep_fail oracle st m h]
  · intro oracle md h
    have key : ∀ (ms : List ImgMatch) (st : PState), st.cache = [] →
        st.processedFiles = [] →
        (∀ m ∈ ms, oracle (normalizeUrl m.src) = none) →
        processMatches oracle st ms =
          { st with
            processed := st.processed + ms.length
            failed := st.failed + ms.length } := by
      intro ms
      induction ms with
      | nil => intro st _ _ _; simp [processMatches]
      | cons m ms ih =>
        intro st h1 h2 h3
        have hsr : stepRecord oracle st m = none := by
          unfold stepRecord
          simp [h1, h2, lookupA, dedupHit, h3 m (by simp)]
        rw [processMatches_cons, processStep_fail oracle st m hsr]
        rw [ih { st with processed := st.processed + 1, failed := st.failed + 1 }
          h1 h2 (fun m' hm' => h3 m' (by simp [hm']))]
        simp [Nat.add_assoc, Nat.add_comm, Nat.add_left_comm]
    have := key (findImageMatches md) (initPState [] md) rfl rfl h
    simpa [processMarkdownImages, initPState] using this

/-- The three-image markdown of the C3 witness; only the middle image's
upload fails. -/
def c3Md : List Char :=
  S "![a](http://h/a.png) ![b](http://h/b.png) ![c](http://h/c.png)"

/-- The C3 witness oracle: every download fails. -/
def c3OracleNone : List Char → Option UploadResp := fun _ => none

/-- The three matches of `c3Md`. -/
def c3M1 : ImgMatch :=
  ⟨S "![a](http://h/a.png)", S "a", S "http://h/a.png", none⟩

/-- Second match of `c3Md`. -/
def c3M2 : ImgMatch :=
  ⟨S "![b](http://h/b.png)", S "b", S "http://h/b.png", none⟩

/-- Third match of `c3Md`. -/
def c3M3 : ImgMatch :=
  ⟨S "![c](http://h/c.png)", S "c", S "http://h/c.png", none⟩

/-- C3 witness: both halves of the theorem applied at concrete inputs --
(i) one failing step in the middle of a run leaves the result/caches
untouched, bumps `processed`/`failed`, and the remaining match is still
processed; (ii) the all-fail run on `c3Md` returns it byte-identical with
`failed = 3`. -/
theorem c3_witness :
    (processMatches c3OracleNone
        { result := c3Md, cache := [], processedFiles := []
          processed := 1, cached := 0, uploaded := 0, failed := 0 }
        [c3M2, c3M3] =
      processMatches c3OracleNone
        { result := c3Md, cache := [], processedFiles := []
          processed := 2, cached := 0, uploaded := 0, failed := 1 }
        [c3M3]) ∧
      processMarkdownImages c3OracleNone [] c3Md =
        { result := c3Md, cache := [], processedFiles := []
          processed := 3, cached := 0, uploaded := 0, failed := 3 } := by
  constructor
  · exact c3_per_image_failure_isolation.1 c3OracleNone
      { result := c3Md, cache := [], processedFiles := []
        processed := 1, cached := 0, uploaded := 0, failed := 0 }
      c3M2 [c3M3] rfl
  · have hms : findImageMatches c3Md = [c3M1, c3M2, c3M3] := by decide
    have h := c3_per_image_failure_isolation.2 c3OracleNone c3Md
      (fun m _ => rfl)
    rw [hms] at h
    simpa using h

/-- The C3 counterexample Markdown: the first reference's title contains
the second reference's full text. -/
def c3CMd : List Char :=
  S "![a](http://h/x.png \"see ![b](http://h/b.png)\") ![b](http://h/b.png)"

/-- The C3 counterexample oracle: the first image's download fails, the
second succeeds with destination name `b123.png`. -/
def c3COracle : List Char → Option UploadResp := fun k =>
  if k = S "http:/h/b.png" then some ⟨S "/uploads/b123.png", S "b123.png"⟩ else none

/-- First match of `c3CMd`: its lazy title group swallows the second
reference's text, and its download fails. -/
def c3CM1 : ImgMatch :=
  ⟨S "![a](http://h/x.png \"see ![b](http://h/b.png)\")", S "a", S "http://h/x.png",
    some (S "see ![b](http://h/b.png)")⟩

/-- Second match of `c3CMd`: uploads successfully. -/
def c3CM2 : ImgMatch :=
  ⟨S "![b](http://h/b.png)", S "b", S "http://h/b.png", none⟩

/-- Counterexample to C3 as stated: in a mixed run the failed first
reference is *not* left byte-identical.  The second match's successful
substitution replaces the first occurrence of its text, which lies
inside the failed reference's title, so the failed reference's text no
longer occurs anywhere in the output (while the batch does continue:
processed 2, failed 1, uploaded 1). -/
theorem c3_counterexample :
    findImageMatches c3CMd = [c3CM1, c3CM2] ∧
      (processMarkdownImages c3COracle [] c3CMd).result =
        S "![a](http://h/x.png \"see ![b123.png](http://localhost:1337/uploads/b123.png)\") ![b](http://h/b.png)" ∧
      (processMarkdownImages c3COracle [] c3CMd).processed = 2 ∧
      (processMarkdownImages c3COracle [] c3CMd).failed = 1 ∧
      (processMarkdownImages c3COracle [] c3CMd).uploaded = 1 ∧
      firstIndexOf (processMarkdownImages c3COracle [] c3CMd).result c3CM1.full = none := by
  refine ⟨by decide, by decide, by decide, by decide, by decide, by decide⟩

/-- The C5 counterexample markdown: two references with distinct
normalized keys whose *source* filenames normalize to the same
`img1`. -/
def c5Md : List Char :=
  S "![a](http://x.com/img-1.png) ![b](http://y.com/img_1.png)"

/-- The C5 counterexample upload oracle: both uploads succeed, but the
destination names the upload endpoint assigns carry hash suffixes, so
their normalizations differ from the source filenames'. -/
def c5Oracle : List Char → Option UploadResp := fun k =>
  if k = S "http:/x.com/img-1.png" then
    some ⟨S "/uploads/img_1_abc.png", S "img_1_abc.png"⟩
  else if k = S "http:/y.com/img_1.png" then
    some ⟨S "/uploads/img_1_def.png", S "img_1_def.png"⟩
  else none

/-- C5 counterexample: in `c5Md` the two source URLs normalize to distinct
keys and their filenames normalize equal (both `img1`), yet the run
uploads *both* images (`uploaded = 2`, `cached = 0`) -- the second does not
reuse the first's record, because the dedup map is keyed by the *uploaded*
destination filename (`img_1_abc.png` ↦ `img1abc`), not by the source
filename the second reference looks up (`img1`). -/
theorem c5_counterexample :
    normalizeUrl (S "http://x.com/img-1.png") ≠ normalizeUrl (S "http://y.com/img_1.png") ∧
      normalizeFilename (getFilename (normalizeUrl (S "http://x.com/img-1.png"))) =
        normalizeFilename (getFilename (normalizeUrl (S "http://y.com/img_1.png"))) ∧
      (processMarkdownImages c5Oracle [] c5Md).uploaded = 2 ∧
      (processMarkdownImages c5Oracle [] c5Md).cached = 0 := by
  refine ⟨by decide, by decide, by decide, by decide⟩

/-- C5 (amended): same-name deduplication keys the reuse map by the
*destination* filename: when two matches with distinct uncached normalized
keys are processed in sequence, the first's upload succeeds, and the
*uploaded* filename normalizes equal to the second's source filename, then
only the first causes an upload; the second is counted as cached, reuses
the first's destination record, and that record is stored in the cache
under the second's normalized key. -/
theorem c5_same_name_dedup :
    ∀ (oracle : List Char → Option UploadResp) (st : PState) (m1 m2 : ImgMatch)
      (resp : UploadResp),
      normalizeUrl m1.src ≠ normalizeUrl m2.src →
      lookupA st.cache (normalizeUrl m1.src) = none →
      lookupA st.cache (normalizeUrl m2.src) = none →
      dedupHit st (normalizeUrl m1.src) = none →
      oracle (normalizeUrl m1.src) = some resp →
      resp.url ≠ [] → resp.name ≠ [] →
      getFilename (normalizeUrl m1.src) ≠ [] →
      getFilename (normalizeUrl m2.src) ≠ [] →
      normalizeFilename (getFilename (normalizeUrl m2.src)) =
        normalizeFilename resp.name →
      (processMatches oracle st [m1, m2]).uploaded = st.uploaded + 1 ∧
        (processMatches oracle st [m1, m2]).cached = st.cached + 1 ∧
        lookupA (processMatches oracle st [m1, m2]).cache (normalizeUrl m2.src) =
          some ⟨BASE_URL ++ resp.url, resp.name⟩ ∧
        (processMatches oracle st [m1, m2]).result =
          jsReplaceFirst
            (jsReplaceFirst st.result m1.full
              (createMarkdownImage resp.name (BASE_URL ++ resp.url) m1.title))
            m2.full
            (createMarkdownImage resp.name (BASE_URL ++ resp.url) m2.title) := by
  intro oracle st m1 m2 resp hne hc1 hc2 hd1 ho hu hn hf1 hf2 hfe
  have hstep1 := processStep_upload oracle st m1 resp hc1 hd1 ho hu hn
  set r : ImgRecord := ⟨BASE_URL ++ resp.url, resp.name⟩ with hr
  set st1 := processStep oracle st m1 with hst1def
  have hc2' : lookupA st1.cache (normalizeUrl m2.src) = none := by
    rw [hstep1]
    simpa [lookupA_setA, hne] using hc2
  have hd2' : dedupHit st1 (normalizeUrl m2.src) = some r := by
    rw [hstep1]
    simp only [dedupHit]
    rw [if_pos hf2, if_pos hf1, hfe]
    exact lookupA_setA_self _ _ _
  have hstep2 := processStep_dedup oracle st1 m2 r hc2' hd2'
  have hfold : processMatches oracle st [m1, m2] = processStep oracle st1 m2 := rfl
  rw [hfold, hstep2, hstep1]
  refine ⟨rfl, rfl, ?_, rfl⟩
  exact lookupA_setA_self _ _ _

/-- The C5-witness oracle: the uploaded destination filename normalizes
equal (`img1`) to the second reference's source filename. -/
def c5WOracle : List Char → Option UploadResp := fun k =>
  if k = S "http:/x.com/img-1.png" then
    some ⟨S "/uploads/img-1.png", S "img-1.png"⟩
  else none

/-- C5 witness: the amended dedup behavior at concrete inputs -- one
upload, one cached reuse, and the record stored under the second key. -/
theorem c5_witness :
    (processMatches c5WOracle (initPState [] c5Md)
        [⟨S "![a](http://x.com/img-1.png)", S "a", S "http://x.com/img-1.png", none⟩,
         ⟨S "![b](http://y.com/img_1.png)", S "b", S "http://y.com/img_1.png", none⟩]).uploaded = 1 ∧
      (processMatches c5WOracle (initPState [] c5Md)
        [⟨S "![a](http://x.com/img-1.png)", S "a", S "http://x.com/img-1.png", none⟩,
         ⟨S "![b](http://y.com/img_1.png)", S "b", S "http://y.com/img_1.png", none⟩]).cached = 1 ∧
      lookupA (processMatches c5WOracle (initPState [] c5Md)
        [⟨S "![a](http://x.com/img-1.png)", S "a", S "http://x.com/img-1.png", none⟩,
         ⟨S "![b](http://y.com/img_1.png)", S "b", S "http://y.com/img_1.png", none⟩]).cache
        (S "http:/y.com/img_1.png") =
        some ⟨S "http://localhost:1337/uploads/img-1.png", S "img-1.png"⟩ := by
  have h := c5_same_name_dedup c5WOracle (initPState [] c5Md)
    ⟨S "![a](http://x.com/img-1.png)", S "a", S "http://x.com/img-1.png", none⟩
    ⟨S "![b](http://y.com/img_1.png)", S "b", S "http://y.com/img_1.png", none⟩
    ⟨S "/uploads/img-1.png", S "img-1.png"⟩
    (by decide) rfl rfl (by decide) (by decide) (by decide) (by decide)
    (by decide) (by decide) (by decide)
  refine ⟨by rw [h.1]; rfl, by rw [h.2.1]; rfl, ?_⟩
  rw [show S "http:/y.com/img_1.png" =
    normalizeUrl (S "http://y.com/img_1.png") from by decide]
  rw [h.2.2.1]
  rfl

/-- C4: `importWPData` throws the invalid-input error iff its argument is
not an array; on an array it settles exactly one outcome per post, the
fold continues past a rejected post with the remaining posts' pipelines
and submissions (third conjunct), a post whose submission fails yields a
rejected outcome (fourth conjunct), and no exception escapes (the array
case always returns `ok`). -/
theorem c4_per_post_isolation :
    (∀ (env : ImportEnv) (cache : List (List Char × ImgRecord)) (inp : ImportInput),
        (∃ os, importWPData env cache inp = .ok os) ↔ ∃ ps, inp = ImportInput.arr ps) ∧
      (∀ (env : ImportEnv) (cache : List (List Char × ImgRecord)) (ps : List WPost),
        (importOutcomes env cache ps).length = ps.length) ∧
      (∀ (env : ImportEnv) (cache : List (List Char × ImgRecord)) (p : WPost)
          (ps : List WPost),
        importOutcomes env cache (p :: ps) =
          (processPost env cache p).1 ::
            importOutcomes env (processPost env cache p).2 ps) ∧
      (∀ (env : ImportEnv) (cache : List (List Char × ImgRecord)) (p : WPost)
          (html title : List Char) (st : PState),
        p.contentRendered = some html →
        htmlToMarkdown env.turndown env.imgOracle cache html = some st →
        p.titleRendered = some title →
        env.submitOk title p.slug
          (convertNodesToMarkdown (parseMarkdownToJson st.result))
          (parseMarkdownToJson st.result) = false →
        (processPost env cache p).1 = Outcome.rejected) := by
  refine ⟨?_, ?_, ?_, ?_⟩
  · intro env cache inp
    cases inp with
    | arr ps => simp [importWPData]
    | notArray => simp [importWPData]
  · intro env cache ps
    induction ps generalizing cache with
    | nil => rfl
    | cons p ps ih => simp [importOutcomes, ih]
  · intro env cache p ps
    rfl
  · intro env cache p html title st h1 h2 h3 h4
    simp [processPost, h1, h2, h3, h4]

/-- The C4 witness environment: identity Turndown, failing image oracle
(unused -- the posts carry no images), and a submission endpoint that
returns HTTP 500 exactly for the post with slug `p2`. -/
def c4Env : ImportEnv :=
  { turndown := fun h => h
    imgOracle := fun _ => none
    submitOk := fun _ slug _ _ => !(slug == S "p2") }

/-- First witness post. -/
def c4P1 : WPost := ⟨1, S "p1", some (S "T1"), some (S "hello one")⟩

/-- Second witness post (its submission fails). -/
def c4P2 : WPost := ⟨2, S "p2", some (S "T2"), some (S "hello two")⟩

/-- Third witness post. -/
def c4P3 : WPost := ⟨3, S "p3", some (S "T3"), some (S "hello three")⟩

/-- C4 witness: three posts with the middle submission failing settle as
fulfilled/rejected/fulfilled, the call returns `ok`, and the failing post's
outcome follows from the theorem's submission-failure conjunct. -/
theorem c4_witness :
    (∃ os, importWPData c4Env [] (ImportInput.arr [c4P1, c4P2, c4P3]) = .ok os) ∧
      importOutcomes c4Env [] [c4P1, c4P2, c4P3] =
        [Outcome.fulfilled, Outcome.rejected, Outcome.fulfilled] ∧
      (processPost c4Env [] c4P2).1 = Outcome.rejected := by
  refine ⟨(c4_per_post_isolation.1 c4Env [] _).mpr ⟨_, rfl⟩, rfl, ?_⟩
  exact c4_per_post_isolation.2.2.2 c4Env [] c4P2 (S "hello two") (S "T2")
    (processMarkdownImages (fun _ => none) [] (S "hello two")) rfl rfl rfl rfl

/-- C1: running the pipeline a second time on the same HTML, with the
cache populated by a first run in which every image succeeded
(`failed = 0`), performs no uploads, counts every image as a cache hit
(`cached = N` for the `N` references), fails nothing, and returns Markdown
identical to the first run's output. -/
theorem c1_idempotent_second_run :
    ∀ (turndown : List Char → List Char) (oracle : List Char → Option UploadResp)
      (c0 : List (List Char × ImgRecord)) (html : List Char),
      html ≠ [] →
      (processMarkdownImages oracle c0 (turndown html)).failed = 0 →
      ∃ st1 st2,
        htmlToMarkdown turndown oracle c0 html = some st1 ∧
        st1 = processMarkdownImages oracle c0 (turndown html) ∧
        htmlToMarkdown turndown oracle st1.cache html = some st2 ∧
        st2.uploaded = 0 ∧
        st2.failed = 0 ∧
        st2.cached = (findImageMatches (turndown html)).length ∧
        st2.result = st1.result := by
  intro turndown oracle c0 html hh hf
  have hf1 : (processMatches oracle (initPState c0 (turndown html))
      (findImageMatches (turndown html))).failed =
      (initPState c0 (turndown html)).failed := hf
  obtain ⟨rs, hlen, hres1, hkeys, _⟩ :=
    run_success oracle (findImageMatches (turndown html)) (initPState c0 (turndown html)) hf1
  have h2 := run_allhits oracle (findImageMatches (turndown html))
    (initPState (processMarkdownImages oracle c0 (turndown html)).cache (turndown html))
    rs hlen hkeys
  refine ⟨processMarkdownImages oracle c0 (turndown html),
    processMarkdownImages oracle
      (processMarkdownImages oracle c0 (turndown html)).cache (turndown html),
    ?_, rfl, ?_, ?_, ?_, ?_, ?_⟩
  · simp [htmlToMarkdown, hh]
  · simp [htmlToMarkdown, hh]
  · rw [show processMarkdownImages oracle
        (processMarkdownImages oracle c0 (turndown html)).cache (turndown html) =
        _ from h2]
    rfl
  · rw [show processMarkdownImages oracle
        (processMarkdownImages oracle c0 (turndown html)).cache (turndown html) =
        _ from h2]
    rfl
  · rw [show processMarkdownImages oracle
        (processMarkdownImages oracle c0 (turndown html)).cache (turndown html) =
        _ from h2]
    simp [initPState]
  · rw [show processMarkdownImages oracle
        (processMarkdownImages oracle c0 (turndown html)).cache (turndown html) =
        _ from h2]
    exact hres1.symm

/-- The C1 witness Turndown stand-in: the HTML converts to a one-image
document. -/
def c1WTurndown : List Char → List Char := fun _ => S "![a](http://h/a.png)"

/-- The C1 witness upload oracle: the upload succeeds. -/
def c1WOracle : List Char → Option UploadResp :=
  fun _ => some ⟨S "/u/a.png", S "a.png"⟩

/-- C1 witness: the theorem at a concrete one-image document whose first
run succeeds. -/
theorem c1_witness :
    ∃ st1 st2,
      htmlToMarkdown c1WTurndown c1WOracle [] (S "x") = some st1 ∧
        st1 = processMarkdownImages c1WOracle [] (c1WTurndown (S "x")) ∧
        htmlToMarkdown c1WTurndown c1WOracle st1.cache (S "x") = some st2 ∧
        st2.uploaded = 0 ∧
        st2.failed = 0 ∧
        st2.cached = (findImageMatches (c1WTurndown (S "x"))).length ∧
        st2.result = st1.result :=
  c1_idempotent_second_run c1WTurndown c1WOracle [] (S "x") (by decide) (by decide)

/-! ## Destination-URL invariants (for C2) -/

theorem recordsDest_nil : recordsDest [] := by
  intro k r h
  simp [lookupA] at h

theorem recordsDest_setA (c : List (List Char × ImgRecord)) (k : List Char)
    (v : ImgRecord) (hc : recordsDest c) (hv : isDestUrl v.url = true) :
    recordsDest (setA c k v) := by
  intro k' r' h
  rw [lookupA_setA] at h
  by_cases hk : k = k'
  · rw [if_pos hk] at h
    cases h
    exact hv
  · rw [if_neg hk] at h
    exact hc k' r' h

theorem processStep_dest (oracle : List Char → Option UploadResp) (st : PState)
    (m : ImgMatch) (hc : recordsDest st.cache) (hp : recordsDest st.processedFiles) :
    recordsDest (processStep oracle st m).cache ∧
      recordsDest (processStep oracle st m).processedFiles := by
  cases h0 : lookupA st.cache (normalizeUrl m.src) with
  | some r0 =>
    rw [processStep_hit oracle st m r0 h0]
    exact ⟨hc, hp⟩
  | none =>
    cases h1 : dedupHit st (normalizeUrl m.src) with
    | some r1 =>
      have hr1 : isDestUrl r1.url = true := by
        unfold dedupHit at h1
        by_cases hf : getFilename (normalizeUrl m.src) ≠ []
        · rw [if_pos hf] at h1
          exact hp _ _ h1
        · rw [if_neg hf] at h1
          cases h1
      rw [processStep_dedup oracle st m r1 h0 h1]
      exact ⟨recordsDest_setA _ _ _ hc hr1, hp⟩
    | none =>
      cases h2 : oracle (normalizeUrl m.src) with
      | none =>
        have hn : stepRecord oracle st m = none := by
          unfold stepRecord; simp [h0, h1, h2]
        rw [processStep_fail oracle st m hn]
        exact ⟨hc, hp⟩
      | some resp =>
        by_cases hu : resp.url = []
        · have hn : stepRecord oracle st m = none := by
            unfold stepRecord; simp [h0, h1, h2, hu]
          rw [processStep_fail oracle st m hn]
          exact ⟨hc, hp⟩
        · by_cases hn2 : resp.name = []
          · have hn : stepRecord oracle st m = none := by
              unfold stepRecord; simp [h0, h1, h2, hn2]
            rw [processStep_fail oracle st m hn]
            exact ⟨hc, hp⟩
          · rw [processStep_upload oracle st m resp h0 h1 h2 hu hn2]
            have hdest : isDestUrl (⟨BASE_URL ++ resp.url, resp.name⟩ : ImgRecord).url = true := by
              rw [isDestUrl, List.isPrefixOf_iff_prefix]
              exact List.prefix_append _ _
            refine ⟨recordsDest_setA _ _ _ hc hdest, ?_⟩
            by_cases hf : getFilename (normalizeUrl m.src) ≠ []
            · simpa [hf] using recordsDest_setA _ _ _ hp hdest
            · simpa [hf] using hp

theorem run_dest (oracle : List Char → Option UploadResp) :
    ∀ (ms : List ImgMatch) (st : PState),
      recordsDest st.cache → recordsDest st.processedFiles →
      recordsDest (processMatches oracle st ms).cache ∧
        recordsDest (processMatches oracle st ms).processedFiles := by
  intro ms
  induction ms with
  | nil => intro st hc hp; exact ⟨hc, hp⟩
  | cons m ms ih =>
    intro st hc hp
    obtain ⟨hc', hp'⟩ := processStep_dest oracle st m hc hp
    exact ih (processStep oracle st m) hc' hp'

/-! ## No image node is ever produced by the block-tree renderer -/

mutual

/-- No `image` variant anywhere in a node. -/
def nodeNoImage : Node → Bool
  | .image _ _ => false
  | .text _ _ => true
  | .thematicBreak => true
  | .link _ ch => listNoImage ch
  | .heading _ ch => listNoImage ch
  | .paragraph ch => listNoImage ch
  | .listB _ ch => listNoImage ch
  | .listItem ch => listNoImage ch
  | .quote ch => listNoImage ch
  | .codeB _ ch => listNoImage ch

/-- No `image` variant anywhere in a node list. -/
def listNoImage : List Node → Bool
  | [] => true
  | n :: ns => nodeNoImage n && listNoImage ns

end

theorem listNoImage_append (a b : List Node) :
    listNoImage (a ++ b) = (listNoImage a && listNoImage b) := by
  induction a with
  | nil => simp [listNoImage]
  | cons n ns ih => simp [listNoImage, ih, Bool.and_assoc]

theorem nodeNoImage_processLinkMatch (full label url : List Char) :
    nodeNoImage (processLinkMatch full label url) = true := by
  unfold processLinkMatch
  split <;> simp [nodeNoImage, listNoImage]

theorem listNoImage_stylePassF (opn cls : List Char) (mk : List Char → Node)
    (hmk : ∀ i, nodeNoImage (mk i) = true) :
    ∀ (n : Nat) (st : List Node × List Char),
      listNoImage st.1 = true → listNoImage (stylePassF opn cls mk n st).1 = true := by
  intro n
  induction n with
  | zero => intro st h; exact h
  | succ n ih =>
    intro st h
    obtain ⟨acc, rem⟩ := st
    unfold stylePassF
    cases hfp : findPair opn cls rem with
    | none => exact h
    | some p =>
      obtain ⟨before, inner, after⟩ := p
      apply ih
      split <;>
        simp [listNoImage_append, listNoImage, nodeNoImage, h, hmk inner]

theorem listNoImage_linkPassF :
    ∀ (n : Nat) (st : List Node × List Char),
      listNoImage st.1 = true → listNoImage (linkPassF n st).1 = true := by
  intro n
  induction n with
  | zero => intro st h; exact h
  | succ n ih =>
    intro st h
    obtain ⟨acc, rem⟩ := st
    unfold linkPassF
    cases hfp : findLinkMatch rem with
    | none => exact h
    | some p =>
      obtain ⟨before, label, url, after⟩ := p
      apply ih
      split <;>
        simp [listNoImage_append, listNoImage, nodeNoImage, h,
          nodeNoImage_processLinkMatch]

theorem listNoImage_parseInline (t : List Char) :
    listNoImage (parseInlineParagraphFormatting t) = true := by
  simp only [parseInlineParagraphFormatting, stylePass, linkPass]
  rw [listNoImage_append]
  refine (Bool.and_eq_true _ _).mpr ⟨?_, ?_⟩
  · apply listNoImage_linkPassF
    apply listNoImage_stylePassF
    · intro i; rfl
    apply listNoImage_stylePassF
    · intro i; rfl
    apply listNoImage_stylePassF
    · intro i; rfl
    apply listNoImage_stylePassF
    · intro i; rfl
    rfl
  · split <;> simp [listNoImage, nodeNoImage]

theorem listNoImage_map_listItem (items : List (List Char)) :
    listNoImage (items.map fun t => Node.listItem (parseInlineParagraphFormatting t)) = true := by
  induction items with
  | nil => rfl
  | cons t ts ih =>
    simp [listNoImage, nodeNoImage, listNoImage_parseInline t, ih]

theorem nodeNoImage_renderToken (tok : MdToken) :
    nodeNoImage (renderToken tok) = true := by
  cases tok with
  | heading d t => simp [renderToken, nodeNoImage, listNoImage]
  | paragraph t =>
    by_cases himg : hasImageRef t = true <;>
      simp [renderToken, himg, nodeNoImage, listNoImage, listNoImage_parseInline]
  | codeTok body lang => simp [renderToken, nodeNoImage, listNoImage]
  | hr => rfl
  | blockquote t => simp [renderToken, nodeNoImage, listNoImage_parseInline]
  | listTok ordered items => simp [renderToken, nodeNoImage, listNoImage_map_listItem]

/-- The block-tree renderer never emits an `image` node. -/
theorem parseMarkdownToJson_noImage (md : List Char) :
    ∀ b ∈ parseMarkdownToJson md, nodeNoImage b = true := by
  intro b hb
  obtain ⟨tok, _, rfl⟩ := List.mem_map.mp hb
  exact nodeNoImage_renderToken tok

/-- The C2 counterexample markdown: one image whose download fails. -/
def c2Md : List Char := S "![a](http://source.example/pic.png)"

/-- C2 counterexample: when the single image's download fails (HTTP
error), the pipeline completes with the produced Markdown still carrying
an image reference whose URL is the original source URL -- not a
destination URL -- refuting "every image reference ... has a destination
(rehosted) URL, never a source URL" as an unconditional invariant. -/
theorem c2_counterexample :
    (processMarkdownImages (fun _ => none) [] c2Md).result = c2Md ∧
      (findImageMatches (processMarkdownImages (fun _ => none) [] c2Md).result).map
        ImgMatch.src = [S "http://source.example/pic.png"] ∧
      isDestUrl (S "http://source.example/pic.png") = false := by
  refine ⟨by decide, by decide, by decide⟩

/-- C2 (amended): after a pipeline run *with no failed images* starting
from the empty cache, the produced Markdown is the input with every image
match replaced through a destination record (a URL carrying the
destination base-URL prefix); and the produced block tree never contains
an `image` node (the block-tree half of the invariant holds vacuously). -/
theorem c2_rehosting_invariant :
    ∀ (oracle : List Char → Option UploadResp) (md : List Char),
      (processMarkdownImages oracle [] md).failed = 0 →
      (∃ rs : List ImgRecord,
        rs.length = (findImageMatches md).length ∧
        (processMarkdownImages oracle [] md).result =
          applyRepls md ((findImageMatches md).zip rs) ∧
        ∀ p ∈ (findImageMatches md).zip rs, isDestUrl p.2.url = true) ∧
      (∀ b ∈ parseMarkdownToJson (processMarkdownImages oracle [] md).result,
        nodeNoImage b = true) := by
  intro oracle md hf
  have hf1 : (processMatches oracle (initPState [] md) (findImageMatches md)).failed =
      (initPState [] md).failed := hf
  obtain ⟨rs, hlen, hres, hkeys, _⟩ :=
    run_success oracle (findImageMatches md) (initPState [] md) hf1
  have hdest := run_dest oracle (findImageMatches md) (initPState [] md)
    recordsDest_nil recordsDest_nil
  refine ⟨⟨rs, hlen, hres, ?_⟩, parseMarkdownToJson_noImage _⟩
  intro p hp
  exact hdest.1 _ _ (hkeys p hp)

/-- The C2 witness oracle: the single upload succeeds. -/
def c2WOracle : List Char → Option UploadResp :=
  fun _ => some ⟨S "/u/pic.png", S "pic.png"⟩

/-- C2 witness: the amended invariant applied to a one-image document
whose upload succeeds. -/
theorem c2_witness :
    (∃ rs : List ImgRecord,
      rs.length = (findImageMatches c2Md).length ∧
        (processMarkdownImages c2WOracle [] c2Md).result =
          applyRepls c2Md ((findImageMatches c2Md).zip rs) ∧
        ∀ p ∈ (findImageMatches c2Md).zip rs, isDestUrl p.2.url = true) ∧
      (∀ b ∈ parseMarkdownToJson (processMarkdownImages c2WOracle [] c2Md).result,
        nodeNoImage b = true) :=
  c2_rehosting_invariant c2WOracle c2Md (by decide)

/-! ## Whitespace-trim lemmas (for C9) -/

theorem head_dropWhile_false {p : Char → Bool} :
    ∀ {l : List Char} {c : Char} {cs : List Char}, l.dropWhile p = c :: cs → p c = false := by
  intro l
  induction l with
  | nil => intro c cs h; cases h
  | cons a as ih =>
    intro c cs h
    by_cases hp : p a = true
    · rw [List.dropWhile_cons, if_pos hp] at h
      exact ih h
    · rw [List.dropWhile_cons, if_neg hp] at h
      cases h
      simpa using hp

theorem dropWhile_eq_self_head {p : Char → Bool} {c : Char} {cs : List Char}
    (h : (c :: cs).dropWhile p = c :: cs) : p c = false := by
  by_cases hp : p c = true
  · rw [List.dropWhile_cons, if_pos hp] at h
    have := congrArg List.length h
    have hle := ((List.dropWhile_suffix p (l := cs)).length_le)
    simp at this
    omega
  · simpa using hp

theorem dropWhile_eq_self_of_head {p : Char → Bool} :
    ∀ {l : List Char}, (∀ c cs, l = c :: cs → p c = false) → l.dropWhile p = l := by
  intro l h
  cases l with
  | nil => rfl
  | cons c cs => rw [List.dropWhile_cons, if_neg (by simp [h c cs rfl])]

theorem jsTrim_dropWhile_fix {l : List Char} (h : jsTrim l = l) :
    l.dropWhile wsChar = l ∧ l.reverse.dropWhile wsChar = l.reverse := by
  have h1 : (jsTrim l).length ≤ ((l.dropWhile wsChar).reverse.dropWhile wsChar).length := by
    simp [jsTrim]
  have h2 : ((l.dropWhile wsChar).reverse.dropWhile wsChar).length ≤
      (l.dropWhile wsChar).length := by
    simpa using (List.dropWhile_suffix (l := (l.dropWhile wsChar).reverse) wsChar).length_le
  have h3 : (l.dropWhile wsChar).length ≤ l.length :=
    (List.dropWhile_suffix wsChar).length_le
  have hlen : (jsTrim l).length = l.length := by rw [h]
  have hfix1 : l.dropWhile wsChar = l :=
    (List.dropWhile_suffix wsChar).eq_of_length (by omega)
  refine ⟨hfix1, ?_⟩
  have : jsTrim l = (l.reverse.dropWhile wsChar).reverse := by
    rw [jsTrim, hfix1]
  rw [h] at this
  have := congrArg List.reverse this
  simpa using this.symm

theorem trimmed_head_not_ws {l : List Char} {c : Char} {cs : List Char}
    (h : jsTrim l = l) (hl : l = c :: cs) : wsChar c = false := by
  subst hl
  exact dropWhile_eq_self_head (jsTrim_dropWhile_fix h).1

theorem trimmed_revhead_not_ws {l : List Char} {c : Char} {cs : List Char}
    (h : jsTrim l = l) (hl : l.reverse = c :: cs) : wsChar c = false := by
  have := (jsTrim_dropWhile_fix h).2
  rw [hl] at this
  exact dropWhile_eq_self_head this

theorem jsTrim_of_ends {l : List Char}
    (hhead : ∀ c cs, l = c :: cs → wsChar c = false)
    (hlast : ∀ c cs, l.reverse = c :: cs → wsChar c = false) :
    jsTrim l = l := by
  have h1 : l.dropWhile wsChar = l := dropWhile_eq_self_of_head hhead
  have h2 : l.reverse.dropWhile wsChar = l.reverse := by
    apply dropWhile_eq_self_of_head
    intro c cs hcs
    exact hlast c cs hcs
  rw [jsTrim, h1, h2, List.reverse_reverse]

theorem prefix_head {u v : List Char} {c : Char} {cs : List Char}
    (h : u <+: v) (hu : u = c :: cs) : ∃ ds, v = c :: ds := by
  obtain ⟨t, rfl⟩ := h
  subst hu
  exact ⟨cs ++ t, rfl⟩

theorem jsTrim_idem (l : List Char) : jsTrim (jsTrim l) = jsTrim l := by
  apply jsTrim_of_ends
  · intro c cs h
    have hsuf : (l.dropWhile wsChar).reverse.dropWhile wsChar <:+
        (l.dropWhile wsChar).reverse := List.dropWhile_suffix wsChar
    have hpfx : (((l.dropWhile wsChar).reverse.dropWhile wsChar).reverse : List Char) <+:
        l.dropWhile wsChar := by
      have h2 := List.reverse_prefix.mpr hsuf
      simpa using h2
    rw [jsTrim] at h
    obtain ⟨ds, hds⟩ := prefix_head hpfx h
    exact head_dropWhile_false hds
  · intro c cs h
    rw [jsTrim, List.reverse_reverse] at h
    exact head_dropWhile_false h

theorem dropWhile_append_split (p : Char → Bool) :
    ∀ (u v : List Char),
      (u ++ v).dropWhile p =
        if u.dropWhile p = [] then v.dropWhile p else u.dropWhile p ++ v := by
  intro u
  induction u with
  | nil => intro v; simp
  | cons c cs ih =>
    intro v
    by_cases hp : p c = true
    · simpa [List.dropWhile_cons, hp] using ih v
    · simp [List.dropWhile_cons, hp]

theorem jsTrim_nil_of_all_ws {l : List Char} (h : l.all wsChar = true) : jsTrim l = [] := by
  have h1 : l.dropWhile wsChar = [] := by
    rw [List.dropWhile_eq_nil_iff]
    intro x hx
    exact List.all_eq_true.mp h x hx
  simp [jsTrim, h1]

theorem jsTrim_append_ws {x w : List Char} (hw : w.all wsChar = true) :
    jsTrim (x ++ w) = jsTrim x := by
  by_cases hx : x.dropWhile wsChar = []
  · have hxall : x.all wsChar = true := by
      rw [List.all_eq_true]
      intro c hc
      exact List.dropWhile_eq_nil_iff.mp hx c hc
    have hall : (x ++ w).all wsChar = true := by
      rw [List.all_append, hxall, hw]
      rfl
    rw [jsTrim_nil_of_all_ws hall, jsTrim_nil_of_all_ws hxall]
  · have hwrev : (w.reverse).dropWhile wsChar = [] := by
      rw [List.dropWhile_eq_nil_iff]
      intro c hc
      exact List.all_eq_true.mp hw c (by simpa using hc)
    rw [jsTrim, dropWhile_append_split, if_neg hx]
    rw [List.reverse_append, dropWhile_append_split, if_pos hwrev]
    rfl

theorem mem_jsTrim {x : Char} {l : List Char} (h : x ∈ jsTrim l) : x ∈ l := by
  rw [jsTrim] at h
  rw [List.mem_reverse] at h
  have h2 := (List.dropWhile_suffix wsChar).subset h
  rw [List.mem_reverse] at h2
  exact (List.dropWhile_suffix wsChar).subset h2

/-- Count of non-whitespace characters: the quantity every inline
conversion step preserves. -/
def nonwsCount (l : List Char) : Nat := (l.filter (fun c => !wsChar c)).length

theorem nonwsCount_append (a b : List Char) :
    nonwsCount (a ++ b) = nonwsCount a + nonwsCount b := by
  simp [nonwsCount]

theorem nonwsCount_dropWhile_ws (l : List Char) :
    nonwsCount (l.dropWhile wsChar) = nonwsCount l := by
  induction l with
  | nil => rfl
  | cons c cs ih =>
    by_cases hp : wsChar c = true
    · rw [List.dropWhile_cons, if_pos hp]
      simp [nonwsCount, List.filter, hp] at ih ⊢
      exact ih
    · rw [List.dropWhile_cons, if_neg (by simp [hp])]

theorem nonwsCount_reverse (l : List Char) : nonwsCount l.reverse = nonwsCount l := by
  rw [nonwsCount, nonwsCount, List.filter_reverse, List.length_reverse]

theorem nonwsCount_jsTrim (l : List Char) : nonwsCount (jsTrim l) = nonwsCount l := by
  rw [jsTrim, nonwsCount_reverse, nonwsCount_dropWhile_ws, nonwsCount_reverse,
    nonwsCount_dropWhile_ws]

theorem nonwsCount_pos {c : Char} {cs : List Char} (h : wsChar c = false) :
    0 < nonwsCount (c :: cs) := by
  simp [nonwsCount, List.filter, h]

/-! ## Decomposition of the inline regex matches (for C9) -/

theorem isPrefixOf_decomp {p l : List Char} (h : p.isPrefixOf l = true) :
    l = p ++ l.drop p.length := by
  obtain ⟨t, rfl⟩ := List.isPrefixOf_iff_prefix.mp h
  rw [List.drop_left]

theorem innerUpto_decomp {cls : List Char} :
    ∀ {l i a : List Char}, innerUpto cls l = some (i, a) → l = i ++ (cls ++ a) := by
  intro l
  induction l with
  | nil =>
    intro i a h
    unfold innerUpto at h
    by_cases hc : cls.isPrefixOf ([] : List Char) = true
    · have hnil : cls = [] := by
        have := List.isPrefixOf_iff_prefix.mp hc
        simpa using this
      rw [if_pos hc] at h
      cases h
      simp [hnil]
    · rw [if_neg hc] at h
      cases h
  | cons c rest ih =>
    intro i a h
    unfold innerUpto at h
    by_cases h1 : cls.isPrefixOf (c :: rest) = true
    · rw [if_pos h1] at h
      cases h
      exact isPrefixOf_decomp h1
    · rw [if_neg h1] at h
      by_cases h2 : isNL c = true
      · rw [if_pos h2] at h
        cases h
      · rw [if_neg h2] at h
        obtain ⟨⟨i', a'⟩, hrec, heq⟩ := Option.map_eq_some'.mp h
        cases heq
        have := ih hrec
        simp [this]

theorem findPair_decomp {opn cls : List Char} :
    ∀ {l b i a : List Char}, findPair opn cls l = some (b, i, a) →
      l = b ++ (opn ++ (i ++ (cls ++ a))) := by
  intro l
  induction l with
  | nil => intro b i a h; cases h
  | cons c rest ih =>
    intro b i a h
    unfold findPair at h
    by_cases h1 : opn.isPrefixOf (c :: rest) = true
    · rw [if_pos h1] at h
      cases h2 : innerUpto cls ((c :: rest).drop opn.length) with
      | none =>
        rw [h2] at h
        obtain ⟨⟨b', i', a'⟩, hrec, heq⟩ := Option.map_eq_some'.mp h
        cases heq
        have := ih hrec
        simp [this]
      | some p =>
        obtain ⟨inner, after⟩ := p
        rw [h2] at h
        cases h
        have hd := isPrefixOf_decomp h1
        have hi := innerUpto_decomp h2
        rw [hi] at hd
        simpa using hd
    · rw [if_neg h1] at h
      obtain ⟨⟨b', i', a'⟩, hrec, heq⟩ := Option.map_eq_some'.mp h
      cases heq
      have := ih hrec
      simp [this]

theorem findLinkMatch_decomp :
    ∀ {l b label url a : List Char}, findLinkMatch l = some (b, label, url, a) →
      l = b ++ (linkFull label url ++ a) := by
  intro l
  induction l with
  | nil => intro b label url a h; cases h
  | cons c rest ih =>
    intro b label url a h
    unfold findLinkMatch at h
    by_cases h1 : (c :: rest).head? = some '['
    · rw [if_pos h1] at h
      have hc : c = '[' := by simpa using h1
      cases h2 : innerUpto (S "](") ((c :: rest).drop 1) with
      | none =>
        rw [h2] at h
        simp only [Option.bind] at h
        obtain ⟨⟨b', label', url', a'⟩, hrec, heq⟩ := Option.map_eq_some'.mp h
        cases heq
        have := ih hrec
        simp [this]
      | some p =>
        obtain ⟨lab, r1⟩ := p
        rw [h2] at h
        simp only [Option.bind] at h
        cases h3 : innerUpto (S ")") r1 with
        | none =>
          rw [h3] at h
          obtain ⟨⟨b', label', url', a'⟩, hrec, heq⟩ := Option.map_eq_some'.mp h
          cases heq
          have := ih hrec
          simp [this]
        | some q =>
          obtain ⟨u, r2⟩ := q
          rw [h3] at h
          simp only [Option.map] at h
          cases h
          have hd2 := innerUpto_decomp h2
          have hd3 := innerUpto_decomp h3
          subst hc
          simp only [List.drop] at hd2
          rw [hd3] at hd2
          simp [linkFull, hd2, S]
    · rw [if_neg h1] at h
      obtain ⟨⟨b', label', url', a'⟩, hrec, heq⟩ := Option.map_eq_some'.mp h
      cases heq
      have := ih hrec
      simp [this]

/-! ## Inline conversion preserves non-whitespace content (for C9) -/

/-- Characters the inline re-renderer may introduce (style markers,
underline tags, link punctuation). -/
def inlineMarkerChar (c : Char) : Bool :=
  c = '*' || c = '~' || c = '<' || c = 'u' || c = '>' || c = '/' ||
    c = '[' || c = ']' || c = '(' || c = ')'

theorem convRawList_append (a b : List Node) :
    convRawList (a ++ b) = convRawList a ++ convRawList b := by
  induction a with
  | nil => simp [convRawList]
  | cons n ns ih => simp [convRawList, ih]

theorem convNodeRaw_text_plain (s : List Char) :
    convNodeRaw (Node.text s {}) = s := by
  simp [convNodeRaw, applyAttrs]

theorem nonwsCount_cons (c : Char) (x : List Char) :
    nonwsCount (c :: x) = (if wsChar c then 0 else 1) + nonwsCount x := by
  by_cases h : wsChar c = true
  · simp [nonwsCount, List.filter, h]
  · simp [nonwsCount, List.filter, h]
    omega

/-- The generic non-link style pass preserves the non-whitespace count of
(converted accumulator + remainder) and introduces only characters of the
remainder or markers. -/
theorem stylePassF_conv (opn cls : List Char) (mk : List Char → Node) (T : List Char)
    (hmkc : ∀ i, nonwsCount (convNodeRaw (mk i)) =
      nonwsCount opn + (nonwsCount i + nonwsCount cls))
    (hmkch : ∀ i c, c ∈ convNodeRaw (mk i) → c ∈ i ∨ inlineMarkerChar c = true) :
    ∀ (n : Nat) (st : List Node × List Char), (∀ c ∈ st.2, c ∈ T) →
      (nonwsCount (convRawList (stylePassF opn cls mk n st).1) +
          nonwsCount (stylePassF opn cls mk n st).2 =
        nonwsCount (convRawList st.1) + nonwsCount st.2) ∧
        (∀ c ∈ (stylePassF opn cls mk n st).2, c ∈ T) ∧
        (∀ c ∈ convRawList (stylePassF opn cls mk n st).1,
          c ∈ convRawList st.1 ∨ c ∈ T ∨ inlineMarkerChar c = true) := by
  intro n
  induction n with
  | zero =>
    intro st hrem
    exact ⟨rfl, hrem, fun c hc => Or.inl hc⟩
  | succ n ih =>
    intro st hrem
    obtain ⟨acc, rem⟩ := st
    simp only at hrem
    cases hfp : findPair opn cls rem with
    | none =>
      simp only [stylePassF, hfp]
      exact ⟨by simp, hrem, fun c hc => Or.inl hc⟩
    | some p =>
      obtain ⟨b, i, a⟩ := p
      have hdec := findPair_decomp hfp
      have hasub : ∀ c ∈ a, c ∈ T := fun c hc => hrem c (by rw [hdec]; simp [hc])
      have hisub : ∀ c ∈ i, c ∈ T := fun c hc => hrem c (by rw [hdec]; simp [hc])
      have hbsub : ∀ c ∈ b, c ∈ T := fun c hc => hrem c (by rw [hdec]; simp [hc])
      obtain ⟨ihc, ihr, ihn⟩ :=
        ih ((acc ++ (if b = [] then [] else [Node.text b {}])) ++ [mk i], a) hasub
      simp only [stylePassF, hfp]
      have h1 : nonwsCount (convRawList [mk i]) =
          nonwsCount opn + (nonwsCount i + nonwsCount cls) := by
        simp only [convRawList, List.append_nil]
        exact hmkc i
      have h2 : nonwsCount (convRawList (if b = [] then [] else [Node.text b {}])) =
          nonwsCount b := by
        by_cases hb : b = []
        · rw [if_pos hb, hb]; simp [convRawList]
        · rw [if_neg hb]
          simp only [convRawList, List.append_nil, convNodeRaw_text_plain]
      constructor
      · rw [ihc]
        simp only [convRawList_append, nonwsCount_append]
        rw [h1, h2, hdec]
        simp only [nonwsCount_append]
        omega
      refine ⟨ihr, ?_⟩
      intro c hc
      rcases ihn c hc with h | h | h
      · simp only [convRawList_append] at h
        rcases List.mem_append.mp h with h' | h'
        · rcases List.mem_append.mp h' with h'' | h''
          · exact Or.inl h''
          · right
            by_cases hb : b = []
            · rw [if_pos hb] at h''
              simp [convRawList] at h''
            · rw [if_neg hb] at h''
              simp only [convRawList, List.append_nil, convNodeRaw_text_plain] at h''
              exact Or.inl (hbsub c h'')
        · right
          simp only [convRawList, List.append_nil] at h'
          rcases hmkch i c h' with hi | hm
          · exact Or.inl (hisub c hi)
          · exact Or.inr hm
      · exact Or.inr (Or.inl h)
      · exact Or.inr (Or.inr h)

theorem bold_count (i : List Char) :
    nonwsCount (convNodeRaw (Node.text i { bold := true })) =
      nonwsCount (S "**") + (nonwsCount i + nonwsCount (S "**")) := by
  have hshape : convNodeRaw (Node.text i { bold := true }) =
      (S "**" ++ i) ++ S "**" := by
    simp only [convNodeRaw]; rfl
  rw [hshape, nonwsCount_append, nonwsCount_append]
  omega

theorem bold_chars (i : List Char) :
    ∀ c ∈ convNodeRaw (Node.text i { bold := true }), c ∈ i ∨ inlineMarkerChar c = true := by
  have hshape : convNodeRaw (Node.text i { bold := true }) =
      (S "**" ++ i) ++ S "**" := by
    simp only [convNodeRaw]; rfl
  have hm : ∀ c ∈ S "**", inlineMarkerChar c = true := by decide
  intro c hc
  rw [hshape] at hc
  rcases List.mem_append.mp hc with h | h
  · rcases List.mem_append.mp h with h' | h'
    · exact Or.inr (hm c h')
    · exact Or.inl h'
  · exact Or.inr (hm c h)

theorem italic_count (i : List Char) :
    nonwsCount (convNodeRaw (Node.text i { italic := true })) =
      nonwsCount (S "_") + (nonwsCount i + nonwsCount (S "_")) := by
  have hshape : convNodeRaw (Node.text i { italic := true }) =
      '*' :: (i ++ ['*']) := by
    simp only [convNodeRaw]; rfl
  rw [hshape, nonwsCount_cons, nonwsCount_append]
  have h1 : nonwsCount (S "_") = 1 := by decide
  have h2 : nonwsCount (['*'] : List Char) = 1 := by decide
  have h3 : wsChar '*' = false := by decide
  rw [h1, h2, h3]
  simp

theorem italic_chars (i : List Char) :
    ∀ c ∈ convNodeRaw (Node.text i { italic := true }), c ∈ i ∨ inlineMarkerChar c = true := by
  have hshape : convNodeRaw (Node.text i { italic := true }) =
      '*' :: (i ++ ['*']) := by
    simp only [convNodeRaw]; rfl
  have hm : ∀ c ∈ (['*'] : List Char), inlineMarkerChar c = true := by decide
  intro c hc
  rw [hshape] at hc
  rcases List.mem_cons.mp hc with h | h
  · exact Or.inr (hm c (by simp [h]))
  · rcases List.mem_append.mp h with h' | h'
    · exact Or.inl h'
    · exact Or.inr (hm c h')

theorem strike_count (i : List Char) :
    nonwsCount (convNodeRaw (Node.text i { strikethrough := true })) =
      nonwsCount (S "~~") + (nonwsCount i + nonwsCount (S "~~")) := by
  have hshape : convNodeRaw (Node.text i { strikethrough := true }) =
      (S "~~" ++ i) ++ S "~~" := by
    simp only [convNodeRaw]; rfl
  rw [hshape, nonwsCount_append, nonwsCount_append]
  omega

theorem strike_chars (i : List Char) :
    ∀ c ∈ convNodeRaw (Node.text i { strikethrough := true }),
      c ∈ i ∨ inlineMarkerChar c = true := by
  have hshape : convNodeRaw (Node.text i { strikethrough := true }) =
      (S "~~" ++ i) ++ S "~~" := by
    simp only [convNodeRaw]; rfl
  have hm : ∀ c ∈ S "~~", inlineMarkerChar c = true := by decide
  intro c hc
  rw [hshape] at hc
  rcases List.mem_append.mp hc with h | h
  · rcases List.mem_append.mp h with h' | h'
    · exact Or.inr (hm c h')
    · exact Or.inl h'
  · exact Or.inr (hm c h)

theorem underline_count (i : List Char) :
    nonwsCount (convNodeRaw (Node.text i { underline := true })) =
      nonwsCount (S "<u>") + (nonwsCount i + nonwsCount (S "</u>")) := by
  have hshape : convNodeRaw (Node.text i { underline := true }) =
      (S "<u>" ++ i) ++ S "</u>" := by
    simp only [convNodeRaw]; rfl
  rw [hshape, nonwsCount_append, nonwsCount_append]
  omega

theorem underline_chars (i : List Char) :
    ∀ c ∈ convNodeRaw (Node.text i { underline := true }),
      c ∈ i ∨ inlineMarkerChar c = true := by
  have hshape : convNodeRaw (Node.text i { underline := true }) =
      (S "<u>" ++ i) ++ S "</u>" := by
    simp only [convNodeRaw]; rfl
  have hm : ∀ c ∈ S "<u>", inlineMarkerChar c = true := by decide
  have hm2 : ∀ c ∈ S "</u>", inlineMarkerChar c = true := by decide
  intro c hc
  rw [hshape] at hc
  rcases List.mem_append.mp hc with h | h
  · rcases List.mem_append.mp h with h' | h'
    · exact Or.inr (hm c h')
    · exact Or.inl h'
  · exact Or.inr (hm2 c h)

theorem linkNode_count (label url : List Char) :
    nonwsCount (convNodeRaw (processLinkMatch (linkFull label url) label url)) =
      nonwsCount (linkFull label url) := by
  have d1 : nonwsCount (['['] : List Char) = 1 := by decide
  have d2 : nonwsCount (S "](") = 2 := by decide
  have d3 : nonwsCount ([')'] : List Char) = 1 := by decide
  have hfull : nonwsCount (linkFull label url) =
      nonwsCount label + nonwsCount url + 4 := by
    have hg : linkFull label url =
        (['['] ++ label) ++ (S "](" ++ (url ++ [')'])) := by
      simp [linkFull, S]
    rw [hg, nonwsCount_append, nonwsCount_append, nonwsCount_append, nonwsCount_append]
    omega
  unfold processLinkMatch
  split
  · rw [convNodeRaw_text_plain]
  · have hshape : convNodeRaw (Node.link url [Node.text label {}]) =
        '[' :: jsTrim label ++ S "](" ++ url ++ [')'] := by
      simp only [convNodeRaw, convertNodesToMarkdown, convRawList, List.append_nil,
        convNodeRaw_text_plain]
    have hg2 : ('[' :: jsTrim label ++ S "](" ++ url ++ [')'] : List Char) =
        (['['] ++ jsTrim label) ++ (S "](" ++ (url ++ [')'])) := by
      simp
    rw [hshape, hg2, nonwsCount_append, nonwsCount_append, nonwsCount_append,
      nonwsCount_append, nonwsCount_jsTrim, hfull]
    omega

theorem linkNode_chars (label url : List Char) :
    ∀ c ∈ convNodeRaw (processLinkMatch (linkFull label url) label url),
      c ∈ linkFull label url ∨ inlineMarkerChar c = true := by
  intro c hc
  unfold processLinkMatch at hc
  split at hc
  · rw [convNodeRaw_text_plain] at hc
    exact Or.inl hc
  · have hshape : convNodeRaw (Node.link url [Node.text label {}]) =
        '[' :: jsTrim label ++ S "](" ++ url ++ [')'] := by
      simp only [convNodeRaw, convertNodesToMarkdown, convRawList, List.append_nil,
        convNodeRaw_text_plain]
    have hg2 : ('[' :: jsTrim label ++ S "](" ++ url ++ [')'] : List Char) =
        (['['] ++ jsTrim label) ++ (S "](" ++ (url ++ [')'])) := by
      simp
    rw [hshape, hg2] at hc
    have hm1 : ∀ c ∈ (['['] : List Char), inlineMarkerChar c = true := by decide
    have hm2 : ∀ c ∈ S "](", inlineMarkerChar c = true := by decide
    have hm3 : ∀ c ∈ ([')'] : List Char), inlineMarkerChar c = true := by decide
    rcases List.mem_append.mp hc with h | h
    · rcases List.mem_append.mp h with h' | h'
      · exact Or.inr (hm1 c h')
      · exact Or.inl (by simp [linkFull]; exact Or.inr (Or.inl (mem_jsTrim h')))
    · rcases List.mem_append.mp h with h' | h'
      · exact Or.inr (hm2 c h')
      · rcases List.mem_append.mp h' with h2 | h2
        · exact Or.inl (by simp [linkFull, h2])
        · exact Or.inr (hm3 c h2)

/-- The link pass preserves the non-whitespace count and introduces only
characters of the remainder or markers. -/
theorem linkPassF_conv (T : List Char) :
    ∀ (n : Nat) (st : List Node × List Char), (∀ c ∈ st.2, c ∈ T) →
      (nonwsCount (convRawList (linkPassF n st).1) + nonwsCount (linkPassF n st).2 =
        nonwsCount (convRawList st.1) + nonwsCount st.2) ∧
        (∀ c ∈ (linkPassF n st).2, c ∈ T) ∧
        (∀ c ∈ convRawList (linkPassF n st).1,
          c ∈ convRawList st.1 ∨ c ∈ T ∨ inlineMarkerChar c = true) := by
  intro n
  induction n with
  | zero =>
    intro st hrem
    exact ⟨rfl, hrem, fun c hc => Or.inl hc⟩
  | succ n ih =>
    intro st hrem
    obtain ⟨acc, rem⟩ := st
    simp only at hrem
    cases hfp : findLinkMatch rem with
    | none =>
      simp only [linkPassF, hfp]
      exact ⟨by simp, hrem, fun c hc => Or.inl hc⟩
    | some p =>
      obtain ⟨b, label, url, a⟩ := p
      have hdec := findLinkMatch_decomp hfp
      have hasub : ∀ c ∈ a, c ∈ T := fun c hc => hrem c (by rw [hdec]; simp [hc])
      have hfsub : ∀ c ∈ linkFull label url, c ∈ T := fun c hc =>
        hrem c (by rw [hdec]; simp [hc])
      have hbsub : ∀ c ∈ b, c ∈ T := fun c hc => hrem c (by rw [hdec]; simp [hc])
      obtain ⟨ihc, ihr, ihn⟩ :=
        ih ((acc ++ (if b = [] then [] else [Node.text b {}])) ++
          [processLinkMatch (linkFull label url) label url], a) hasub
      simp only [linkPassF, hfp]
      have h1 : nonwsCount (convRawList [processLinkMatch (linkFull label url) label url]) =
          nonwsCount (linkFull label url) := by
        simp only [convRawList, List.append_nil]
        exact linkNode_count label url
      have h2 : nonwsCount (convRawList (if b = [] then [] else [Node.text b {}])) =
          nonwsCount b := by
        by_cases hb : b = []
        · rw [if_pos hb, hb]; simp [convRawList]
        · rw [if_neg hb]
          simp only [convRawList, List.append_nil, convNodeRaw_text_plain]
      constructor
      · rw [ihc]
        simp only [convRawList_append, nonwsCount_append]
        rw [h1, h2, hdec]
        simp only [nonwsCount_append]
        omega
      refine ⟨ihr, ?_⟩
      intro c hc
      rcases ihn c hc with h | h | h
      · simp only [convRawList_append] at h
        rcases List.mem_append.mp h with h' | h'
        · rcases List.mem_append.mp h' with h'' | h''
          · exact Or.inl h''
          · right
            by_cases hb : b = []
            · rw [if_pos hb] at h''
              simp [convRawList] at h''
            · rw [if_neg hb] at h''
              simp only [convRawList, List.append_nil, convNodeRaw_text_plain] at h''
              exact Or.inl (hbsub c h'')
        · right
          simp only [convRawList, List.append_nil] at h'
          rcases linkNode_chars label url c h' with hf | hm
          · exact Or.inl (hfsub c hf)
          · exact Or.inr hm
      · exact Or.inr (Or.inl h)
      · exact Or.inr (Or.inr h)

/-- The full inline pipeline rewrites a paragraph without changing its
non-whitespace count, and introduces only the paragraph's own characters
or inline markers. -/
theorem parseInline_conv (t : List Char) :
    nonwsCount (convRawList (parseInlineParagraphFormatting t)) = nonwsCount t ∧
      ∀ c ∈ convRawList (parseInlineParagraphFormatting t),
        c ∈ t ∨ inlineMarkerChar c = true := by
  simp only [parseInlineParagraphFormatting, stylePass, linkPass]
  set s1 := stylePassF (S "**") (S "**") (fun i => Node.text i { bold := true })
    (t.length + 1) ([], t) with hs1
  set s2 := stylePassF (S "_") (S "_") (fun i => Node.text i { italic := true })
    (s1.2.length + 1) s1 with hs2
  set s3 := stylePassF (S "~~") (S "~~") (fun i => Node.text i { strikethrough := true })
    (s2.2.length + 1) s2 with hs3
  set s4 := stylePassF (S "<u>") (S "</u>") (fun i => Node.text i { underline := true })
    (s3.2.length + 1) s3 with hs4
  set s5 := linkPassF (s4.2.length + 1) s4 with hs5
  obtain ⟨hc1, hr1, hn1⟩ := stylePassF_conv (S "**") (S "**")
    (fun i => Node.text i { bold := true }) t bold_count bold_chars
    (t.length + 1) ([], t) (fun c hc => hc)
  rw [← hs1] at hc1 hr1 hn1
  obtain ⟨hc2, hr2, hn2⟩ := stylePassF_conv (S "_") (S "_")
    (fun i => Node.text i { italic := true }) t italic_count italic_chars
    (s1.2.length + 1) s1 hr1
  rw [← hs2] at hc2 hr2 hn2
  obtain ⟨hc3, hr3, hn3⟩ := stylePassF_conv (S "~~") (S "~~")
    (fun i => Node.text i { strikethrough := true }) t strike_count strike_chars
    (s2.2.length + 1) s2 hr2
  rw [← hs3] at hc3 hr3 hn3
  obtain ⟨hc4, hr4, hn4⟩ := stylePassF_conv (S "<u>") (S "</u>")
    (fun i => Node.text i { underline := true }) t underline_count underline_chars
    (s3.2.length + 1) s3 hr3
  rw [← hs4] at hc4 hr4 hn4
  obtain ⟨hc5, hr5, hn5⟩ := linkPassF_conv t (s4.2.length + 1) s4 hr4
  rw [← hs5] at hc5 hr5 hn5
  have hnil : convRawList ((([] : List Node), t).1) = [] := by simp [convRawList]
  have hzero : nonwsCount (convRawList ((([] : List Node), t).1)) = 0 := by
    rw [hnil]; rfl
  constructor
  · rw [convRawList_append, nonwsCount_append]
    have htr : nonwsCount (convRawList (if s5.2 = [] then []
        else [Node.text s5.2 {}])) = nonwsCount s5.2 := by
      by_cases hb : s5.2 = []
      · rw [if_pos hb, hb]; simp [convRawList]
      · rw [if_neg hb]
        simp only [convRawList, List.append_nil, convNodeRaw_text_plain]
    rw [htr]
    rw [hzero] at hc1
    rw [show ((([] : List Node), t)).2 = t from rfl] at hc1
    omega
  · intro c hc
    rw [convRawList_append] at hc
    rcases List.mem_append.mp hc with h | h
    · rcases hn5 c h with h' | h' | h'
      · rcases hn4 c h' with h2 | h2 | h2
        · rcases hn3 c h2 with h3 | h3 | h3
          · rcases hn2 c h3 with h4 | h4 | h4
            · rcases hn1 c h4 with h5 | h5 | h5
              · rw [hnil] at h5; cases h5
              · exact Or.inl h5
              · exact Or.inr h5
            · exact Or.inl h4
            · exact Or.inr h4
          · exact Or.inl h3
          · exact Or.inr h3
        · exact Or.inl h2
        · exact Or.inr h2
      · exact Or.inl h'
      · exact Or.inr h'
    · by_cases hb : s5.2 = []
      · rw [if_pos hb] at h
        simp [convRawList] at h
      · rw [if_neg hb] at h
        simp only [convRawList, List.append_nil, convNodeRaw_text_plain] at h
        exact Or.inl (hr5 c h)

/-! ## Structured documents for the block-tree round trip (C9)

A document of the claim's fragment — ATX headings, single-line
paragraphs and fenced code blocks, separated by one blank line —
rendered to Markdown text.  The well-formedness conditions keep each
block's text inside its own block when the rendered text is tokenized
again. -/

/-- A block of the claim's Markdown fragment. -/
inductive DocBlock where
  | dhead (lvl : Nat) (text : List Char)
  | dpara (text : List Char)
  | dcode (lang : List Char) (bodyLines : List (List Char))
deriving DecidableEq, Repr

/-- No line terminator occurs in the text. -/
def noNL (l : List Char) : Bool := decide ('\n' ∉ l)

/-- Well-formedness of one block: heading level 1–6 with nonempty
trimmed single-line text that is not itself bold Markdown; nonempty
trimmed single-line paragraph text without `#` or backticks; code with
trimmed single-line info string, nonempty body lines none of which
closes the fence, jointly trimmed. -/
def wfBlock : DocBlock → Bool
  | .dhead lvl t =>
    decide (1 ≤ lvl) && decide (lvl ≤ 6) && decide (t ≠ []) && noNL t &&
      decide (jsTrim t = t) && !isBoldMarkdown t
  | .dpara t =>
    decide (t ≠ []) && noNL t && decide (jsTrim t = t) &&
      decide ('#' ∉ t) && decide (Char.ofNat 96 ∉ t)
  | .dcode lang bls =>
    noNL lang && decide (jsTrim lang = lang) && decide (bls ≠ []) &&
      bls.all (fun l => noNL l && decide (jsTrim l ≠ S "```")) &&
      decide (jsTrim (joinLines bls) = joinLines bls)

/-- A well-formed document: nonempty, all blocks well-formed. -/
def wfDoc (doc : List DocBlock) : Bool := decide (doc ≠ []) && doc.all wfBlock

/-- The Markdown lines of one block. -/
def blockLines : DocBlock → List (List Char)
  | .dhead lvl t => [List.replicate lvl '#' ++ ' ' :: t]
  | .dpara t => [t]
  | .dcode lang bls => (S "```" ++ lang) :: bls ++ [S "```"]

/-- The lines of a document: blocks separated by one blank line. -/
def docLines : List DocBlock → List (List Char)
  | [] => []
  | [b] => blockLines b
  | b :: b2 :: rest => blockLines b ++ [] :: docLines (b2 :: rest)

/-- The document rendered to Markdown text. -/
def renderDoc (doc : List DocBlock) : List Char := joinLines (docLines doc)

/-- The `marked` token a well-formed block tokenizes to. -/
def tokOf : DocBlock → MdToken
  | .dhead lvl t => .heading lvl t
  | .dpara t => .paragraph t
  | .dcode lang bls => .codeTok (joinLines bls) lang

/-- What the claim compares across the round trip: heading levels and
texts, paragraph boundaries, code fence language and body. -/
inductive OutlineItem where
  | ohead (lvl : Nat) (text : List Char)
  | opara
  | ocode (lang : List Char) (body : List Char)
  | oother
deriving DecidableEq, Repr

/-- The outline item of one block token. -/
def outlineOfToken : MdToken → OutlineItem
  | .heading d t => .ohead d t
  | .paragraph _ => .opara
  | .codeTok body lang => .ocode lang body
  | .hr => .oother
  | .blockquote _ => .oother
  | .listTok _ _ => .oother

/-- The outline of a Markdown text, in document order. -/
def docOutline (md : List Char) : List OutlineItem :=
  (tokenize (splitLines md)).map outlineOfToken

/-- The paragraph text after one round trip (parse the inline runs,
convert them back, trim). -/
def paraConv (t : List Char) : List Char :=
  if hasImageRef t then jsTrim t
  else jsTrim (convRawList (parseInlineParagraphFormatting t))

/-- The block after one round trip: headings and code unchanged,
paragraph text re-rendered. -/
def transform : DocBlock → DocBlock
  | .dhead lvl t => .dhead lvl t
  | .dpara t => .dpara (paraConv t)
  | .dcode lang bls => .dcode lang bls

theorem joinLines_nil : joinLines [] = [] := rfl

theorem joinLines_single (x : List Char) : joinLines [x] = x := by
  simp [joinLines, List.intercalate]

theorem joinLines_cons (x : List Char) (xs : List (List Char)) (h : xs ≠ []) :
    joinLines (x :: xs) = x ++ '\n' :: joinLines xs := by
  cases xs with
  | nil => exact absurd rfl h
  | cons y t => simp [joinLines, List.intercalate]

theorem joinLines_append (as bs : List (List Char)) (ha : as ≠ []) (hb : bs ≠ []) :
    joinLines (as ++ bs) = joinLines as ++ '\n' :: joinLines bs := by
  induction as with
  | nil => exact absurd rfl ha
  | cons a t ih =>
    cases t with
    | nil =>
      rw [List.singleton_append, joinLines_cons a bs hb, joinLines_single]
    | cons a2 t2 =>
      rw [List.cons_append, joinLines_cons a ((a2 :: t2) ++ bs) (by simp),
        joinLines_cons a (a2 :: t2) (by simp), ih (by simp)]
      simp [List.append_assoc]

theorem isBlankLine_false_of_head {c : Char} {cs : List Char} (h : wsChar c = false) :
    isBlankLine (c :: cs) = false := by
  simp [isBlankLine, List.all_cons, h]

theorem isBlankLine_false_of_trimmed {t : List Char} (hne : t ≠ []) (htr : jsTrim t = t) :
    isBlankLine t = false := by
  cases t with
  | nil => exact absurd rfl hne
  | cons c cs => exact isBlankLine_false_of_head (trimmed_head_not_ws htr rfl)

theorem isFenceLine_false_of_not_bt {t : List Char} (h : Char.ofNat 96 ∉ t) :
    isFenceLine t = false := by
  cases hf : isFenceLine t
  · rfl
  · exfalso
    rw [isFenceLine] at hf
    have hd := isPrefixOf_decomp hf
    exact h (hd ▸ List.mem_append.mpr (Or.inl (by decide)))

theorem isFenceLine_false_of_head {c : Char} {cs : List Char} (h : ¬(c = Char.ofNat 96)) :
    isFenceLine (c :: cs) = false := by
  cases hf : isFenceLine (c :: cs)
  · rfl
  · exfalso
    rw [isFenceLine] at hf
    have hd := isPrefixOf_decomp hf
    rw [show S "```" = Char.ofNat 96 :: S "``" from by decide, List.cons_append] at hd
    exact h (List.head_eq_of_cons_eq hd)

theorem headingOf_none_of_not_hash {t : List Char} (h : '#' ∉ t) :
    headingOf t = none := by
  have htw : t.takeWhile (· = '#') = [] := by
    cases t with
    | nil => rfl
    | cons c cs =>
      have hc : ¬(c = '#') := fun he => h (he ▸ List.mem_cons_self c cs)
      simp [List.takeWhile_cons, hc]
  simp [headingOf, htw]

theorem fence_fold (lang : List Char) :
    ∀ (bls : List (List Char)) (out : List MdToken) (acc : List (List Char)),
      (∀ l ∈ bls, jsTrim l ≠ S "```") →
      bls.foldl tokStep ⟨out, .fence lang acc⟩ = ⟨out, .fence lang (bls.reverse ++ acc)⟩ := by
  intro bls
  induction bls with
  | nil => intro out acc _; simp
  | cons b t ih =>
    intro out acc h
    have hb : jsTrim b ≠ S "```" := h b (by simp)
    rw [List.foldl_cons]
    have hstep : tokStep ⟨out, .fence lang acc⟩ b = ⟨out, .fence lang (b :: acc)⟩ := by
      simp [tokStep, hb]
    rw [hstep, ih out (b :: acc) (fun l hl => h l (by simp [hl]))]
    simp

theorem takeWhile_hash :
    ∀ (lvl : Nat) (t : List Char),
      (List.replicate lvl '#' ++ ' ' :: t).takeWhile (· = '#') = List.replicate lvl '#' := by
  intro lvl
  induction lvl with
  | zero => intro t; simp [List.takeWhile_cons]
  | succ k ih =>
    intro t
    rw [List.replicate_succ, List.cons_append, List.takeWhile_cons]
    simp [ih t]

theorem foldl_heading (lvl : Nat) (t : List Char) (out : List MdToken)
    (h1 : 1 ≤ lvl) (h6 : lvl ≤ 6) (htr : jsTrim t = t) :
    (blockLines (.dhead lvl t)).foldl tokStep ⟨out, .normal⟩ =
      ⟨.heading lvl t :: out, .normal⟩ := by
  obtain ⟨k, rfl⟩ : ∃ k, lvl = k + 1 := ⟨lvl - 1, by omega⟩
  rw [blockLines, List.foldl_cons, List.foldl_nil]
  have hline : List.replicate (k + 1) '#' ++ ' ' :: t =
      '#' :: (List.replicate k '#' ++ ' ' :: t) := by
    rw [List.replicate_succ, List.cons_append]
  have hblank : isBlankLine (List.replicate (k + 1) '#' ++ ' ' :: t) = false := by
    rw [hline]; exact isBlankLine_false_of_head (by decide)
  have hfence : isFenceLine (List.replicate (k + 1) '#' ++ ' ' :: t) = false := by
    rw [hline]
    exact isFenceLine_false_of_head (by decide)
  have hhead : headingOf (List.replicate (k + 1) '#' ++ ' ' :: t) = some (k + 1, t) := by
    simp only [headingOf, takeWhile_hash, List.length_replicate]
    rw [List.drop_left' (List.length_replicate (k + 1) '#')]
    simp [h6, htr]
  simp [tokStep, hblank, hfence, hhead]

theorem foldl_para (t : List Char) (out : List MdToken)
    (hne : t ≠ []) (htr : jsTrim t = t) (hh : '#' ∉ t) (hbt : Char.ofNat 96 ∉ t) :
    (blockLines (.dpara t)).foldl tokStep ⟨out, .normal⟩ = ⟨out, .para [t]⟩ := by
  rw [blockLines, List.foldl_cons, List.foldl_nil]
  simp [tokStep, isBlankLine_false_of_trimmed hne htr, isFenceLine_false_of_not_bt hbt,
    headingOf_none_of_not_hash hh]

theorem foldl_code (lang : List Char) (bls : List (List Char)) (out : List MdToken)
    (hltr : jsTrim lang = lang)
    (hb : ∀ l ∈ bls, jsTrim l ≠ S "```") :
    (blockLines (.dcode lang bls)).foldl tokStep ⟨out, .normal⟩ =
      ⟨.codeTok (joinLines bls) lang :: out, .normal⟩ := by
  rw [blockLines, List.cons_append, List.foldl_cons, List.foldl_append, List.foldl_cons,
    List.foldl_nil]
  have h96 : S "```" = Char.ofNat 96 :: S "``" := by decide
  have hblank : isBlankLine (S "```" ++ lang) = false := by
    rw [h96, List.cons_append]
    exact isBlankLine_false_of_head (by decide)
  have hfence : isFenceLine (S "```" ++ lang) = true := by
    rw [isFenceLine]
    exact List.isPrefixOf_iff_prefix.mpr (List.prefix_append _ _)
  have hlang : fenceLang (S "```" ++ lang) = lang := by
    rw [fenceLang, List.drop_left' (by decide : (S "```").length = 3), hltr]
  have hopen : tokStep ⟨out, .normal⟩ (S "```" ++ lang) = ⟨out, .fence lang []⟩ := by
    simp [tokStep, hblank, hfence, hlang]
  rw [hopen, fence_fold lang bls out [] hb]
  have hclose : jsTrim (S "```") = S "```" := by decide
  simp [tokStep, hclose, paraText]

theorem tokStep_blank_normal (out : List MdToken) :
    tokStep ⟨out, .normal⟩ [] = ⟨out, .normal⟩ := by
  simp [tokStep, isBlankLine]

theorem tokStep_blank_para (out : List MdToken) (acc : List (List Char)) :
    tokStep ⟨out, .para acc⟩ [] = ⟨.paragraph (paraText acc) :: out, .normal⟩ := by
  simp [tokStep, isBlankLine]

theorem paraText_single (t : List Char) : paraText [t] = t := by
  simp [paraText, joinLines_single]

theorem wf_dhead {lvl : Nat} {t : List Char} (h : wfBlock (.dhead lvl t) = true) :
    1 ≤ lvl ∧ lvl ≤ 6 ∧ t ≠ [] ∧ '\n' ∉ t ∧ jsTrim t = t ∧ isBoldMarkdown t = false := by
  simp only [wfBlock, noNL, Bool.and_eq_true, decide_eq_true_eq, Bool.not_eq_true'] at h
  obtain ⟨⟨⟨⟨⟨h1, h2⟩, h3⟩, h4⟩, h5⟩, h6⟩ := h
  exact ⟨h1, h2, h3, h4, h5, h6⟩

theorem wf_dpara {t : List Char} (h : wfBlock (.dpara t) = true) :
    t ≠ [] ∧ '\n' ∉ t ∧ jsTrim t = t ∧ '#' ∉ t ∧ Char.ofNat 96 ∉ t := by
  simp only [wfBlock, noNL, Bool.and_eq_true, decide_eq_true_eq] at h
  obtain ⟨⟨⟨⟨h1, h2⟩, h3⟩, h4⟩, h5⟩ := h
  exact ⟨h1, h2, h3, h4, h5⟩

theorem wf_dcode {lang : List Char} {bls : List (List Char)}
    (h : wfBlock (.dcode lang bls) = true) :
    '\n' ∉ lang ∧ jsTrim lang = lang ∧ bls ≠ [] ∧
      (∀ l ∈ bls, '\n' ∉ l ∧ jsTrim l ≠ S "```") ∧
      jsTrim (joinLines bls) = joinLines bls := by
  simp only [wfBlock, noNL, Bool.and_eq_true, decide_eq_true_eq, List.all_eq_true] at h
  obtain ⟨⟨⟨⟨h1, h2⟩, h3⟩, h4⟩, h5⟩ := h
  exact ⟨h1, h2, h3, h4, h5⟩

theorem foldl_docLines :
    ∀ (doc : List DocBlock), doc.all wfBlock = true →
      ∀ out : List MdToken,
        tokFinalize ((docLines doc).foldl tokStep ⟨out, .normal⟩) =
          out.reverse ++ doc.map tokOf := by
  intro doc
  induction doc with
  | nil =>
    intro _ out
    simp [docLines, tokFinalize]
  | cons b rest ih =>
    intro hwf out
    rw [List.all_cons, Bool.and_eq_true] at hwf
    obtain ⟨hb, hrest⟩ := hwf
    cases rest with
    | nil =>
      rw [show docLines [b] = blockLines b from rfl]
      cases b with
      | dhead lvl t =>
        obtain ⟨h1, h6, _, _, htr, _⟩ := wf_dhead hb
        rw [foldl_heading lvl t out h1 h6 htr]
        simp [tokFinalize, tokOf]
      | dpara t =>
        obtain ⟨hne, _, htr, hh, hbt⟩ := wf_dpara hb
        rw [foldl_para t out hne htr hh hbt]
        simp [tokFinalize, tokOf, paraText_single]
      | dcode lang bls =>
        obtain ⟨_, hltr, _, hlines, _⟩ := wf_dcode hb
        rw [foldl_code lang bls out hltr (fun l hl => (hlines l hl).2)]
        simp [tokFinalize, tokOf]
    | cons b2 rs =>
      rw [show docLines (b :: b2 :: rs) = blockLines b ++ [] :: docLines (b2 :: rs) from rfl,
        List.foldl_append, List.foldl_cons]
      cases b with
      | dhead lvl t =>
        obtain ⟨h1, h6, _, _, htr, _⟩ := wf_dhead hb
        rw [foldl_heading lvl t out h1 h6 htr, tokStep_blank_normal,
          ih hrest (.heading lvl t :: out)]
        simp [tokOf]
      | dpara t =>
        obtain ⟨hne, _, htr, hh, hbt⟩ := wf_dpara hb
        rw [foldl_para t out hne htr hh hbt, tokStep_blank_para,
          ih hrest (.paragraph (paraText [t]) :: out)]
        simp [tokOf, paraText_single]
      | dcode lang bls =>
        obtain ⟨_, hltr, _, hlines, _⟩ := wf_dcode hb
        rw [foldl_code lang bls out hltr (fun l hl => (hlines l hl).2),
          tokStep_blank_normal, ih hrest (.codeTok (joinLines bls) lang :: out)]
        simp [tokOf]

/-- A well-formed document's lines tokenize block by block. -/
theorem tokenize_docLines (doc : List DocBlock) (h : doc.all wfBlock = true) :
    tokenize (docLines doc) = doc.map tokOf := by
  have hfold := foldl_docLines doc h []
  simpa [tokenize] using hfold

theorem blockLines_ne_nil (b : DocBlock) : blockLines b ≠ [] := by
  cases b <;> simp [blockLines]

theorem docLines_ne_nil : ∀ {doc : List DocBlock}, doc ≠ [] → docLines doc ≠ [] := by
  intro doc h
  cases doc with
  | nil => exact absurd rfl h
  | cons b rest =>
    cases rest with
    | nil => exact blockLines_ne_nil b
    | cons b2 rs =>
      rw [show docLines (b :: b2 :: rs) = blockLines b ++ [] :: docLines (b2 :: rs) from rfl]
      simp

theorem mem_blockLines_noNL {b : DocBlock} (h : wfBlock b = true) :
    ∀ l ∈ blockLines b, '\n' ∉ l := by
  cases b with
  | dhead lvl t =>
    obtain ⟨_, _, _, hnl, _, _⟩ := wf_dhead h
    intro l hl
    simp only [blockLines, List.mem_singleton] at hl
    subst hl
    intro hm
    rcases List.mem_append.mp hm with hr | hc
    · exact absurd (List.eq_of_mem_replicate hr) (by decide)
    · rcases List.mem_cons.mp hc with he | ht
      · exact absurd he (by decide)
      · exact hnl ht
  | dpara t =>
    obtain ⟨_, hnl, _, _, _⟩ := wf_dpara h
    intro l hl
    simp only [blockLines, List.mem_singleton] at hl
    subst hl
    exact hnl
  | dcode lang bls =>
    obtain ⟨hlang, _, _, hlines, _⟩ := wf_dcode h
    intro l hl
    rw [blockLines] at hl
    rcases List.mem_append.mp hl with h1 | h2
    · rcases List.mem_cons.mp h1 with he | hbl
      · subst he
        intro hm
        rcases List.mem_append.mp hm with hf | hlg
        · exact absurd hf (by decide)
        · exact hlang hlg
      · exact (hlines l hbl).1
    · rcases List.mem_cons.mp h2 with he | habs
      · subst he
        decide
      · simp at habs

theorem mem_docLines_noNL : ∀ {doc : List DocBlock}, doc.all wfBlock = true →
    ∀ l ∈ docLines doc, '\n' ∉ l := by
  intro doc
  induction doc with
  | nil => intro _ l hl; simp [docLines] at hl
  | cons b rest ih =>
    intro hwf l hl
    rw [List.all_cons, Bool.and_eq_true] at hwf
    obtain ⟨hb, hrest⟩ := hwf
    cases rest with
    | nil => exact mem_blockLines_noNL hb l hl
    | cons b2 rs =>
      rw [show docLines (b :: b2 :: rs) = blockLines b ++ [] :: docLines (b2 :: rs) from rfl]
        at hl
      rcases List.mem_append.mp hl with h1 | h2
      · exact mem_blockLines_noNL hb l h1
      · rcases List.mem_cons.mp h2 with he | h3
        · subst he; simp
        · exact ih hrest l h3

/-- Rendering then splitting recovers the document's lines. -/
theorem splitLines_renderDoc {doc : List DocBlock} (h : wfDoc doc = true) :
    splitLines (renderDoc doc) = docLines doc := by
  rw [wfDoc, Bool.and_eq_true, decide_eq_true_eq] at h
  obtain ⟨hne, hall⟩ := h
  rw [splitLines, renderDoc, joinLines]
  exact List.splitOn_intercalate (docLines doc) '\n'
    (fun l hl => mem_docLines_noNL hall l hl) (docLines_ne_nil hne)

theorem renderDoc_single (b : DocBlock) : renderDoc [b] = joinLines (blockLines b) := rfl

theorem renderDoc_cons (b b2 : DocBlock) (rs : List DocBlock) :
    renderDoc (b :: b2 :: rs) =
      joinLines (blockLines b) ++ '\n' :: '\n' :: renderDoc (b2 :: rs) := by
  rw [renderDoc,
    show docLines (b :: b2 :: rs) = blockLines b ++ [] :: docLines (b2 :: rs) from rfl,
    joinLines_append _ _ (blockLines_ne_nil b) (by simp),
    joinLines_cons _ _ (docLines_ne_nil (by simp))]
  rfl

/-- The switch output for the rendered blocks, block by block, before the
final trim. -/
def rawOf : List DocBlock → List Char
  | [] => []
  | b :: rest => (joinLines (blockLines b) ++ S "\n\n") ++ rawOf rest

theorem rawOf_eq_renderDoc : ∀ (doc : List DocBlock), doc ≠ [] →
    rawOf doc = renderDoc doc ++ S "\n\n" := by
  intro doc
  induction doc with
  | nil => intro h; exact absurd rfl h
  | cons b rest ih =>
    intro _
    cases rest with
    | nil =>
      rw [rawOf, rawOf, renderDoc_single]
      simp
    | cons b2 rs =>
      rw [rawOf, ih (by simp), renderDoc_cons,
        show S "\n\n" = '\n' :: '\n' :: [] from by decide]
      simp [List.append_assoc]

theorem convNodeRaw_renderToken_head (lvl : Nat) (t : List Char)
    (htr : jsTrim t = t) (hbold : isBoldMarkdown t = false) :
    convNodeRaw (renderToken (.heading lvl t)) =
      joinLines (blockLines (.dhead lvl t)) ++ S "\n\n" := by
  rw [renderToken, hbold]
  have hshape : convNodeRaw (Node.heading lvl [Node.text t { bold := false }]) =
      List.replicate lvl '#' ++
        ' ' :: convertNodesToMarkdown [Node.text t { bold := false }] ++ S "\n\n" := by
    simp only [convNodeRaw]
  rw [hshape]
  have hconv : convertNodesToMarkdown [Node.text t { bold := false }] = t := by
    rw [convertNodesToMarkdown]
    have hr : convRawList [Node.text t { bold := false }] = t := by
      simp [convRawList, convNodeRaw, applyAttrs]
    rw [hr, htr]
  rw [hconv, blockLines, joinLines_single]

theorem convNodeRaw_renderToken_para (t : List Char) :
    convNodeRaw (renderToken (.paragraph t)) = paraConv t ++ S "\n\n" := by
  rw [renderToken, paraConv]
  by_cases himg : hasImageRef t = true
  · rw [if_pos himg, if_pos himg]
    have hshape : convNodeRaw (Node.paragraph [Node.text t {}]) =
        convertNodesToMarkdown [Node.text t {}] ++ S "\n\n" := by
      simp only [convNodeRaw]
    rw [hshape, convertNodesToMarkdown]
    have hr : convRawList [Node.text t {}] = t := by
      simp [convRawList, convNodeRaw_text_plain]
    rw [hr]
  · rw [if_neg himg, if_neg himg]
    have hshape : convNodeRaw (Node.paragraph (parseInlineParagraphFormatting t)) =
        convertNodesToMarkdown (parseInlineParagraphFormatting t) ++ S "\n\n" := by
      simp only [convNodeRaw]
    rw [hshape, convertNodesToMarkdown]

theorem convNodeRaw_renderToken_code (lang : List Char) (bls : List (List Char))
    (hne : bls ≠ []) (hjtr : jsTrim (joinLines bls) = joinLines bls) :
    convNodeRaw (renderToken (.codeTok (joinLines bls) lang)) =
      joinLines (blockLines (.dcode lang bls)) ++ S "\n\n" := by
  rw [renderToken, hjtr]
  have hshape : convNodeRaw (Node.codeB lang [Node.text (joinLines bls) {}]) =
      S "```" ++ lang ++
        '\n' :: convertNodesToMarkdown [Node.text (joinLines bls) {}] ++ S "\n```\n\n" := by
    simp only [convNodeRaw]
  rw [hshape]
  have hconv : convertNodesToMarkdown [Node.text (joinLines bls) {}] = joinLines bls := by
    rw [convertNodesToMarkdown]
    have hr : convRawList [Node.text (joinLines bls) {}] = joinLines bls := by
      simp [convRawList, convNodeRaw_text_plain]
    rw [hr, hjtr]
  rw [hconv, blockLines, List.cons_append,
    joinLines_cons _ _ (by simp),
    joinLines_append bls [S "```"] hne (by simp), joinLines_single,
    show S "\n```\n\n" = '\n' :: (S "```" ++ S "\n\n") from by decide]
  simp [List.append_assoc]

theorem convRawList_map_tokOf : ∀ (doc : List DocBlock), doc.all wfBlock = true →
    convRawList ((doc.map tokOf).map renderToken) = rawOf (doc.map transform) := by
  intro doc
  induction doc with
  | nil => intro _; simp [convRawList, rawOf]
  | cons b rest ih =>
    intro hwf
    rw [List.all_cons, Bool.and_eq_true] at hwf
    obtain ⟨hb, hrest⟩ := hwf
    rw [List.map_cons, List.map_cons]
    have hlist : convRawList (renderToken (tokOf b) :: (rest.map tokOf).map renderToken) =
        convNodeRaw (renderToken (tokOf b)) ++
          convRawList ((rest.map tokOf).map renderToken) := by
      simp [convRawList]
    rw [hlist, ih hrest, List.map_cons, rawOf]
    cases b with
    | dhead lvl t =>
      obtain ⟨_, _, _, _, htr, hbold⟩ := wf_dhead hb
      rw [tokOf, convNodeRaw_renderToken_head lvl t htr hbold,
        show transform (.dhead lvl t) = .dhead lvl t from rfl]
    | dpara t =>
      rw [tokOf, convNodeRaw_renderToken_para t,
        show transform (.dpara t) = .dpara (paraConv t) from rfl, blockLines,
        joinLines_single]
    | dcode lang bls =>
      obtain ⟨_, _, hne, _, hjtr⟩ := wf_dcode hb
      rw [tokOf, convNodeRaw_renderToken_code lang bls hne hjtr,
        show transform (.dcode lang bls) = .dcode lang bls from rfl]

theorem paraConv_count (t : List Char) : nonwsCount (paraConv t) = nonwsCount t := by
  rw [paraConv]
  by_cases himg : hasImageRef t = true
  · rw [if_pos himg, nonwsCount_jsTrim]
  · rw [if_neg himg, nonwsCount_jsTrim, (parseInline_conv t).1]

theorem paraConv_mem {c : Char} {t : List Char} (h : c ∈ paraConv t) :
    c ∈ t ∨ inlineMarkerChar c = true := by
  rw [paraConv] at h
  by_cases himg : hasImageRef t = true
  · rw [if_pos himg] at h
    exact Or.inl (mem_jsTrim h)
  · rw [if_neg himg] at h
    exact (parseInline_conv t).2 c (mem_jsTrim h)

theorem paraConv_trimmed (t : List Char) : jsTrim (paraConv t) = paraConv t := by
  rw [paraConv]
  by_cases himg : hasImageRef t = true
  · rw [if_pos himg]; exact jsTrim_idem t
  · rw [if_neg himg]; exact jsTrim_idem _

theorem nonwsCount_pos_of_trimmed {t : List Char} (hne : t ≠ []) (htr : jsTrim t = t) :
    0 < nonwsCount t := by
  cases t with
  | nil => exact absurd rfl hne
  | cons c cs => exact nonwsCount_pos (trimmed_head_not_ws htr rfl)

theorem ne_nil_of_nonwsCount_pos {t : List Char} (h : 0 < nonwsCount t) : t ≠ [] := by
  intro he
  subst he
  simp [nonwsCount] at h

theorem wfBlock_transform {b : DocBlock} (h : wfBlock b = true) :
    wfBlock (transform b) = true := by
  cases b with
  | dhead lvl t => exact h
  | dcode lang bls => exact h
  | dpara t =>
    obtain ⟨hne, hnl, htr, hh, hbt⟩ := wf_dpara h
    have hcount : 0 < nonwsCount (paraConv t) := by
      rw [paraConv_count]
      exact nonwsCount_pos_of_trimmed hne htr
    have hne' : paraConv t ≠ [] := ne_nil_of_nonwsCount_pos hcount
    have hnl' : '\n' ∉ paraConv t := by
      intro hm
      rcases paraConv_mem hm with hmt | hmk
      · exact hnl hmt
      · exact absurd hmk (by decide)
    have hh' : '#' ∉ paraConv t := by
      intro hm
      rcases paraConv_mem hm with hmt | hmk
      · exact hh hmt
      · exact absurd hmk (by decide)
    have hbt' : Char.ofNat 96 ∉ paraConv t := by
      intro hm
      rcases paraConv_mem hm with hmt | hmk
      · exact hbt hmt
      · exact absurd hmk (by decide)
    show wfBlock (.dpara (paraConv t)) = true
    simp only [wfBlock, noNL, Bool.and_eq_true, decide_eq_true_eq]
    exact ⟨⟨⟨⟨hne', hnl'⟩, paraConv_trimmed t⟩, hh'⟩, hbt'⟩

theorem wfDoc_transform {doc : List DocBlock} (h : wfDoc doc = true) :
    wfDoc (doc.map transform) = true := by
  rw [wfDoc, Bool.and_eq_true, decide_eq_true_eq] at h ⊢
  obtain ⟨hne, hall⟩ := h
  constructor
  · cases doc with
    | nil => exact absurd rfl hne
    | cons b rest => simp
  · rw [List.all_eq_true] at hall ⊢
    intro b hb
    rw [List.mem_map] at hb
    obtain ⟨a, ha, rfl⟩ := hb
    exact wfBlock_transform (hall a ha)

theorem block_head_nonws {b : DocBlock} (h : wfBlock b = true) :
    ∃ c cs, joinLines (blockLines b) = c :: cs ∧ wsChar c = false := by
  cases b with
  | dhead lvl t =>
    obtain ⟨h1, _, _, _, _, _⟩ := wf_dhead h
    obtain ⟨k, rfl⟩ : ∃ k, lvl = k + 1 := ⟨lvl - 1, by omega⟩
    rw [blockLines, joinLines_single, List.replicate_succ, List.cons_append]
    exact ⟨'#', _, rfl, by decide⟩
  | dpara t =>
    obtain ⟨hne, _, htr, _, _⟩ := wf_dpara h
    rw [blockLines, joinLines_single]
    cases t with
    | nil => exact absurd rfl hne
    | cons c cs => exact ⟨c, cs, rfl, trimmed_head_not_ws htr rfl⟩
  | dcode lang bls =>
    rw [blockLines, List.cons_append, joinLines_cons _ _ (by simp),
      show S "```" = Char.ofNat 96 :: S "``" from by decide]
    simp only [List.cons_append]
    exact ⟨Char.ofNat 96, _, rfl, by decide⟩

theorem block_last_nonws {b : DocBlock} (h : wfBlock b = true) :
    ∃ c cs, (joinLines (blockLines b)).reverse = c :: cs ∧ wsChar c = false := by
  cases b with
  | dhead lvl t =>
    obtain ⟨_, _, hne, _, htr, _⟩ := wf_dhead h
    obtain ⟨c, cs, hrev⟩ : ∃ c cs, t.reverse = c :: cs := by
      cases htrev : t.reverse with
      | nil =>
        exact absurd (by simpa using congrArg List.reverse htrev) hne
      | cons c cs => exact ⟨c, cs, rfl⟩
    have hc : wsChar c = false := trimmed_revhead_not_ws htr hrev
    rw [blockLines, joinLines_single, List.reverse_append, List.reverse_cons, hrev]
    simp only [List.cons_append]
    exact ⟨c, _, rfl, hc⟩
  | dpara t =>
    obtain ⟨hne, _, htr, _, _⟩ := wf_dpara h
    obtain ⟨c, cs, hrev⟩ : ∃ c cs, t.reverse = c :: cs := by
      cases htrev : t.reverse with
      | nil =>
        exact absurd (by simpa using congrArg List.reverse htrev) hne
      | cons c cs => exact ⟨c, cs, rfl⟩
    rw [blockLines, joinLines_single, hrev]
    exact ⟨c, cs, rfl, trimmed_revhead_not_ws htr hrev⟩
  | dcode lang bls =>
    obtain ⟨_, _, hne, _, _⟩ := wf_dcode h
    rw [blockLines, List.cons_append, joinLines_cons _ _ (by simp),
      joinLines_append bls [S "```"] hne (by simp), joinLines_single]
    simp only [List.reverse_append, List.reverse_cons,
      show (S "```").reverse = Char.ofNat 96 :: S "``" from by decide,
      List.cons_append, List.append_assoc]
    exact ⟨Char.ofNat 96, _, rfl, by decide⟩

theorem renderDoc_head_ex {doc : List DocBlock} (hne : doc ≠ [])
    (hall : doc.all wfBlock = true) :
    ∃ c cs, renderDoc doc = c :: cs ∧ wsChar c = false := by
  cases doc with
  | nil => exact absurd rfl hne
  | cons b rest =>
    rw [List.all_cons, Bool.and_eq_true] at hall
    obtain ⟨c0, cs0, hj, hc0⟩ := block_head_nonws hall.1
    cases rest with
    | nil =>
      rw [renderDoc_single, hj]
      exact ⟨c0, cs0, rfl, hc0⟩
    | cons b2 rs =>
      rw [renderDoc_cons, hj, List.cons_append]
      exact ⟨c0, _, rfl, hc0⟩

theorem renderDoc_last_ex : ∀ {doc : List DocBlock}, doc ≠ [] →
    doc.all wfBlock = true →
    ∃ c cs, (renderDoc doc).reverse = c :: cs ∧ wsChar c = false := by
  intro doc
  induction doc with
  | nil => intro hne _; exact absurd rfl hne
  | cons b rest ih =>
    intro _ hall
    rw [List.all_cons, Bool.and_eq_true] at hall
    cases rest with
    | nil =>
      obtain ⟨c0, cs0, hj, hc0⟩ := block_last_nonws hall.1
      rw [renderDoc_single, hj]
      exact ⟨c0, cs0, rfl, hc0⟩
    | cons b2 rs =>
      obtain ⟨c0, cs0, hrev, hc0⟩ := ih (by simp) hall.2
      rw [renderDoc_cons, List.reverse_append, List.reverse_cons, List.reverse_cons, hrev]
      simp only [List.cons_append, List.append_assoc]
      exact ⟨c0, _, rfl, hc0⟩

/-- A well-formed document's rendering is already trimmed. -/
theorem renderDoc_trimmed {doc : List DocBlock} (h : wfDoc doc = true) :
    jsTrim (renderDoc doc) = renderDoc doc := by
  rw [wfDoc, Bool.and_eq_true, decide_eq_true_eq] at h
  obtain ⟨hne, hall⟩ := h
  obtain ⟨c1, cs1, hh, hc1⟩ := renderDoc_head_ex hne hall
  obtain ⟨c2, cs2, hl, hc2⟩ := renderDoc_last_ex hne hall
  apply jsTrim_of_ends
  · intro c cs heq
    rw [hh] at heq
    simp only [List.cons.injEq] at heq
    exact heq.1 ▸ hc1
  · intro c cs heq
    rw [hl] at heq
    simp only [List.cons.injEq] at heq
    exact heq.1 ▸ hc2

/-- C9: for a well-formed Markdown document of headings, paragraphs and
fenced code blocks (heading texts not themselves bold Markdown,
paragraph texts without `#` or backticks), the round trip
`convertNodesToMarkdown (parseMarkdownToJson md)` preserves the
document's outline: the same heading levels and texts, the same
paragraph boundaries, and the same code fences with the same language
and body. -/
theorem c9_roundtrip_outline (doc : List DocBlock) (h : wfDoc doc = true) :
    docOutline (convertNodesToMarkdown (parseMarkdownToJson (renderDoc doc))) =
      docOutline (renderDoc doc) := by
  have hall : doc.all wfBlock = true := by
    rw [wfDoc, Bool.and_eq_true] at h
    exact h.2
  have hne : doc ≠ [] := by
    rw [wfDoc, Bool.and_eq_true, decide_eq_true_eq] at h
    exact h.1
  have h' : wfDoc (doc.map transform) = true := wfDoc_transform h
  have hne' : doc.map transform ≠ [] := by
    cases doc with
    | nil => exact absurd rfl hne
    | cons b r => simp
  have hparse : parseMarkdownToJson (renderDoc doc) = (doc.map tokOf).map renderToken := by
    rw [parseMarkdownToJson, splitLines_renderDoc h, tokenize_docLines doc hall]
  have hconv : convertNodesToMarkdown ((doc.map tokOf).map renderToken) =
      renderDoc (doc.map transform) := by
    rw [convertNodesToMarkdown, convRawList_map_tokOf doc hall,
      rawOf_eq_renderDoc (doc.map transform) hne',
      jsTrim_append_ws (by decide), renderDoc_trimmed h']
  have hout : ∀ (d : List DocBlock), wfDoc d = true →
      docOutline (renderDoc d) = d.map (fun b => outlineOfToken (tokOf b)) := by
    intro d hd
    have hdall : d.all wfBlock = true := by
      rw [wfDoc, Bool.and_eq_true] at hd
      exact hd.2
    rw [docOutline, splitLines_renderDoc hd, tokenize_docLines d hdall, List.map_map]
    rfl
  rw [hparse, hconv, hout _ h', hout _ h, List.map_map]
  have hcomp : ((fun b => outlineOfToken (tokOf b)) ∘ transform) =
      fun b => outlineOfToken (tokOf b) := by
    funext b
    cases b <;> rfl
  rw [hcomp]

/-- The spec's claim without the well-formedness restriction fails on a
bold heading. -/
def c9Md : List Char := S "# **Hi**"

/-- Counterexample to the unrestricted C9: the heading `# **Hi**` parses
to a heading node whose renderer re-wraps the already-bold text, giving
`# ****Hi****` — a different heading text, not a whitespace-only
difference. -/
theorem c9_counterexample :
    docOutline (convertNodesToMarkdown (parseMarkdownToJson c9Md)) ≠ docOutline c9Md := by
  have h2 : convertNodesToMarkdown (parseMarkdownToJson c9Md) = S "# ****Hi****" := by
    rw [show parseMarkdownToJson c9Md =
      [Node.heading 1 [Node.text (S "**Hi**") { bold := true }]] from rfl]
    simp only [convertNodesToMarkdown, convRawList, convNodeRaw, applyAttrs]
    decide
  rw [h2]
  decide

/-- A concrete well-formed document on which the round trip preserves
the outline. -/
def c9WDoc : List DocBlock :=
  [.dhead 2 (S "Getting Started"),
   .dpara (S "Install **the tool** and _run_ it."),
   .dcode (S "js") [S "const x = 1;", S "console.log(x);"],
   .dpara (S "Done.")]

/-- Witness for C9 at a concrete document. -/
theorem c9_witness :
    wfDoc c9WDoc = true ∧
      docOutline (convertNodesToMarkdown (parseMarkdownToJson (renderDoc c9WDoc))) =
        docOutline (renderDoc c9WDoc) :=
  ⟨by decide, c9_roundtrip_outline c9WDoc (by decide)⟩

end WM
